import Mathlib

set_option linter.unusedVariables false

/-!
Verification development for the day-20 pulse-network simulator
(`src/day20/a/src/main.rs` and `src/day20/b/src/main.rs`).

The Rust code is embedded shallowly:

* `Kind`, `Module`, `Network` mirror the Rust structures; the Rust
  `BTreeMap<&str, Module>` is modelled as a key-sorted association list
  (`ModuleMap`) with sorted insertion (`mmInsert`), key lookup (`mmFind`)
  and in-place value replacement (`mmSet`).
* Failing operations (`unwrap`, `unreachable!`, vector indexing) are
  modelled with `Option` / a `panic` result constructor.
* The unbounded `while` loops of the Rust code are modelled with an
  explicit fuel parameter; running out of fuel is distinguished from a
  panic so that safety statements do not confuse the two.
* Both source files share the texts of `parse_text` and `Network::pulse`;
  they are defined once here.  `solve` from `a/src/main.rs` is `A.solve`,
  the part-B pipeline lives in namespace `B`.
-/

namespace Day20

/-- Mirrors the Rust `enum Kind`. -/
inductive Kind where
  | Broadcast : Kind
  | FlipFlop (last : Bool) : Kind
  | Conjunction (memory : List Bool) : Kind
deriving DecidableEq, Repr

/-- Mirrors the Rust `struct Module`. -/
structure Module where
  kind : Kind
  name : String
  input : List String
  output : List String
deriving DecidableEq, Repr

/-- Strict byte-wise order on strings, mirroring the ordering Rust's
`BTreeMap<&str, _>` uses for its keys (for the ASCII module names of the
inputs, `&str` byte order is exactly this character order). -/
def strLtAux : List Char → List Char → Bool
  | [], [] => false
  | [], _ :: _ => true
  | _ :: _, [] => false
  | a :: as, b :: bs =>
    if a.toNat < b.toNat then true
    else if b.toNat < a.toNat then false
    else strLtAux as bs

/-- Strict order on the names used as `BTreeMap` keys. -/
def strLt (a b : String) : Bool := strLtAux a.data b.data

/-- The Rust `BTreeMap<&str, Module>`, as a key-sorted association list. -/
abbrev ModuleMap := List (String × Module)

/-- `BTreeMap::get`. -/
def mmFind : ModuleMap → String → Option Module
  | [], _ => none
  | (k, v) :: rest, key => if k = key then some v else mmFind rest key

/-- `BTreeMap::insert`: sorted insertion, replacing an existing binding. -/
def mmInsert : ModuleMap → String → Module → ModuleMap
  | [], key, v => [(key, v)]
  | (k, w) :: rest, key, v =>
    if strLt key k then (key, v) :: (k, w) :: rest
    else if key = k then (key, v) :: rest
    else (k, w) :: mmInsert rest key v

/-- Replacing the value stored at an existing key (a `get_mut` write). -/
def mmSet : ModuleMap → String → Module → ModuleMap
  | [], _, _ => []
  | (k, w) :: rest, key, v =>
    if k = key then (key, v) :: rest else (k, w) :: mmSet rest key v

/-- `BTreeMap::contains_key`. -/
def mmContains (m : ModuleMap) (key : String) : Bool := (mmFind m key).isSome

/-- Mirrors the Rust `struct Network`. -/
structure Network where
  modules : ModuleMap
deriving DecidableEq, Repr

/-- A queued pulse `(sender, receiver, level)`; `false` is low, `true` is high. -/
abbrev Pulse := String × String × Bool

/-- `Iterator::position` specialised to name lookup, as used for the
Conjunction's `producer_idx`. -/
def listPos : List String → String → Option Nat
  | [], _ => none
  | x :: rest, s => if x = s then some 0 else (listPos rest s).map (· + 1)

/-- Mirrors `Network::pulse` (identical text in `a/src/main.rs` and
`b/src/main.rs`).  `none` models the Rust panics: a missing receiver
module, a Conjunction receiving from a sender absent from its `input`
list, or a memory write out of bounds. -/
def Network.pulse (net : Network) (receiver : String) (p : Bool) (sender : String) :
    Option (Network × List Pulse) :=
  match mmFind net.modules receiver with
  | none => none
  | some m =>
    let step : Option (Kind × Option Bool) :=
      match m.kind with
      | .Broadcast => some (.Broadcast, some false)
      | .FlipFlop last =>
        if p then some (.FlipFlop last, none)
        else some (.FlipFlop (!last), some (!last))
      | .Conjunction memory =>
        match listPos m.input sender with
        | none => none
        | some idx =>
          if idx < memory.length then
            let memory := memory.set idx p
            if false ∈ memory then some (.Conjunction memory, some true)
            else some (.Conjunction memory, some false)
          else none
    match step with
    | none => none
    | some (kind, lvl) =>
      let m := { m with kind := kind }
      let net := { net with modules := mmSet net.modules receiver m }
      let pulses := match lvl with
        | none => []
        | some lvl => m.output.map fun r => (receiver, r, lvl)
      some (net, pulses)

/-- Result of draining the pulse queue in `a/src/main.rs`'s `solve`. -/
inductive RunResult where
  | done (net : Network) (low high : Nat)
  | outOfFuel (net : Network) (pulses : List Pulse) (low high : Nat)
  | panic
deriving DecidableEq, Repr

/-- The tallying `while let Some(...) = pulses.pop_front()` loop of
`a/src/main.rs`'s `solve`: pop the oldest pulse, tally it, and if the
receiver is a defined module deliver it and append the produced pulses
behind the pending ones. -/
def runQueue : Nat → Network → List Pulse → Nat → Nat → RunResult
  | _, net, [], low, high => .done net low high
  | 0, net, ps, low, high => .outOfFuel net ps low high
  | fuel + 1, net, (sender, receiver, p) :: rest, low, high =>
    let low := if p then low else low + 1
    let high := if p then high + 1 else high
    if mmContains net.modules receiver then
      match net.pulse receiver p sender with
      | none => .panic
      | some (net, newPulses) => runQueue fuel net (rest ++ newPulses) low high
    else
      runQueue fuel net rest low high

namespace A

/-- One button press of `a/src/main.rs`'s `solve`: count the seed pulse as
one low pulse, deliver it to `broadcaster` directly, then drain the queue. -/
def tick (fuel : Nat) (net : Network) (low high : Nat) : RunResult :=
  match net.pulse "broadcaster" false "button" with
  | none => .panic
  | some (net, pulses) => runQueue fuel net pulses (low + 1) high

/-- The `for _ in 0..n` loop of `a/src/main.rs`'s `solve`, with the tallies
accumulating across ticks. -/
def solveLoop : Nat → Nat → Network → Nat → Nat → RunResult
  | 0, _, net, low, high => .done net low high
  | n + 1, fuel, net, low, high =>
    match tick fuel net low high with
    | .done net low high => solveLoop n fuel net low high
    | r => r

/-- `a/src/main.rs`'s `solve`: 1000 button presses, result `low * high`. -/
def solve (fuel : Nat) (net : Network) : Option Nat :=
  match solveLoop 1000 fuel net 0 0 with
  | .done _ low high => some (low * high)
  | _ => none

end A

/-!  ## The parser (`parse_text`, identical text in both source files)

The Rust `consumes : BTreeMap<&str, HashSet<&str>>` is modelled as a
key-sorted association list from consumer name to the list of its
producers.  A Rust `HashSet` iterates in an unspecified order; here the
producers are kept in first-insertion order, which fixes one of the
orders the Rust code may produce.  The `inputs : ModuleInputs` map built
by the Rust function is dead (it is not part of the returned `Network`)
and is not modelled. -/

/-- ASCII whitespace, as trimmed by Rust's `str::trim` on these inputs. -/
def isWS (c : Char) : Bool := c = ' ' ∨ c = '\t' ∨ c = '\n' ∨ c = '\r'

/-- Drop leading whitespace. -/
def trimLeft : List Char → List Char
  | [] => []
  | c :: rest => if isWS c then trimLeft rest else c :: rest

/-- Rust's `str::trim`. -/
def trimStr (s : String) : String :=
  ⟨(trimLeft (trimLeft s.data.reverse).reverse)⟩

/-- Rust's `str::split` on a one-character separator. -/
def splitChar (sep : Char) : List Char → List (List Char)
  | [] => [[]]
  | c :: rest =>
    let r := splitChar sep rest
    if c = sep then [] :: r
    else
      match r with
      | [] => [[c]]
      | g :: gs => (c :: g) :: gs

/-- Rust's `str::split_once("->")`: split at the first `->`. -/
def splitArrow : List Char → Option (List Char × List Char)
  | [] => none
  | '-' :: '>' :: rest => some ([], rest)
  | c :: rest => (splitArrow rest).map fun pr => (c :: pr.1, pr.2)

/-- `consumes.get_mut(x).insert(name)` / `consumes.insert(x, {name})`. -/
def consInsert : List (String × List String) → String → String → List (String × List String)
  | [], x, nm => [(x, [nm])]
  | (k, v) :: rest, x, nm =>
    if strLt x k then (x, [nm]) :: (k, v) :: rest
    else if x = k then (k, if nm ∈ v then v else v ++ [nm]) :: rest
    else (k, v) :: consInsert rest x nm

/-- The `for x in output.iter()` loop recording `name` as a producer of
each of its outputs. -/
def recordConsumes (nm : String) : List String → List (String × List String) → List (String × List String)
  | [], cons => cons
  | x :: rest, cons => recordConsumes nm rest (consInsert cons x nm)

/-- One line of the wiring text: `split_once("->")`, trimming, and the
`%` / `&` / `broadcaster` kind dispatch.  `none` models the two panics
(`unwrap` on a line without `->`, `unreachable!` on an unknown kind). -/
def parseLine (line : String) : Option (String × Kind × List String) :=
  match splitArrow line.data with
  | none => none
  | some (namePart, outputPart) =>
    let name := trimStr ⟨namePart⟩
    let output := (splitChar ',' (trimStr ⟨outputPart⟩).data).map
      fun cs => trimStr ⟨cs⟩
    match name.data with
    | '%' :: flip_flop => some (⟨flip_flop⟩, Kind.FlipFlop false, output)
    | '&' :: conjunction => some (⟨conjunction⟩, Kind.Conjunction [], output)
    | _ => if name = "broadcaster" then some (name, Kind.Broadcast, output) else none

/-- The first phase of `parse_text`: the `for line in text.lines()` loop,
building the module map (inputs still empty) and the `consumes` map. -/
def parseLines : List String → ModuleMap → List (String × List String) →
    Option (ModuleMap × List (String × List String))
  | [], modules, cons => some (modules, cons)
  | line :: rest, modules, cons =>
    let line := trimStr line
    if line.data.length = 0 then parseLines rest modules cons
    else
      match parseLine line with
      | none => none
      | some (name, kind, output) =>
        let cons := recordConsumes name output cons
        let m : Module := { kind := kind, name := name, input := [], output := output }
        parseLines rest (mmInsert modules name m) cons

/-- The second phase of `parse_text`: `for (consumer, inputs) in consumes`,
pushing every producer onto the consumer's `input` list when the consumer
is a defined module. -/
def applyConsumes : List (String × List String) → ModuleMap → ModuleMap
  | [], modules => modules
  | (consumer, ins) :: rest, modules =>
    match mmFind modules consumer with
    | none => applyConsumes rest modules
    | some m => applyConsumes rest (mmSet modules consumer { m with input := m.input ++ ins })

/-- The body of `parse_text`'s third phase for one module:
`*memory = vec![false; module.input.len()]` when it is a Conjunction. -/
def sizeOne (m : Module) : Module :=
  match m.kind with
  | .Conjunction _ => { m with kind := .Conjunction (List.replicate m.input.length false) }
  | _ => m

/-- The third phase of `parse_text`: size every Conjunction's memory. -/
def sizeMemories (modules : ModuleMap) : ModuleMap :=
  modules.map fun kv => (kv.1, sizeOne kv.2)

/-- Mirrors `parse_text` (identical text in both source files).
`text.lines()` is modelled by splitting on newline characters; a
trailing `\r` is removed by the `line.trim()` the loop itself performs. -/
def parse_text (text : String) : Option Network :=
  match parseLines ((splitChar '\n' text.data).map fun cs => (⟨cs⟩ : String)) [] [] with
  | none => none
  | some (modules, cons) => some ⟨sizeMemories (applyConsumes cons modules)⟩

namespace B

/-!  ## Part B (`b/src/main.rs`): cycle detection over sub-networks -/

/-- Result of draining the (untallied) pulse queue of `calculate_cycle`. -/
inductive RunResultB where
  | done (net : Network)
  | outOfFuel (net : Network) (pulses : List Pulse)
  | panic
deriving DecidableEq, Repr

/-- The `while let Some(...) = pulses.pop_front()` loop inside
`calculate_cycle`: like part A's loop but without the tallies (the
`pulse && sender == end` branch of the Rust code has an empty body and
is omitted). -/
def runPulses : Nat → Network → List Pulse → RunResultB
  | _, net, [] => .done net
  | 0, net, ps => .outOfFuel net ps
  | fuel + 1, net, (sender, receiver, p) :: rest =>
    if mmContains net.modules receiver then
      match net.pulse receiver p sender with
      | none => .panic
      | some (net, newPulses) => runPulses fuel net (rest ++ newPulses)
    else
      runPulses fuel net rest

/-- One `step` of `calculate_cycle`: seed `("broadcaster", start, low)`
and drain the queue.  `none` is a panic or fuel exhaustion. -/
def tickB (fuel : Nat) (start : String) (net : Network) : Option Network :=
  match runPulses fuel net [("broadcaster", start, false)] with
  | .done net => some net
  | _ => none

/-- Lookup in the `states : HashMap<Network, u128>` map. -/
def statesFind : List (Network × Nat) → Network → Option Nat
  | [], _ => none
  | (n, k) :: rest, net => if n = net then some k else statesFind rest net

/-- The `for step in 1..` loop of `calculate_cycle`. -/
def cycleGo (F : Nat) (start : String) : Nat → Network → List (Network × Nat) → Nat → Option (Nat × Nat)
  | 0, _, _, _ => none
  | fuel + 1, net, states, step =>
    match tickB F start net with
    | none => none
    | some net' =>
      match statesFind states net' with
      | some cs => some (cs, step)
      | none => cycleGo F start fuel net' ((net', step) :: states) (step + 1)

/-- Mirrors `calculate_cycle` (the `end` argument is accepted but, as in
the Rust code, only read by a debug branch with an empty body). -/
def calculate_cycle (F fuel : Nat) (net : Network) (start e : String) : Option (Nat × Nat) :=
  cycleGo F start fuel net [(net, 0)] 1

/-- The `for input_name in node.input` loop pushing backward edges with
an early `break` at a start node (the stack grows at the head, so the
head is the most recently pushed edge, as the end of a Rust `Vec`). -/
def pushEdges (src : String) (roots : List String) : List String → List (String × String) → List (String × String)
  | [], acc => acc
  | i :: rest, acc =>
    if i ∈ roots then (src, i) :: acc
    else pushEdges src roots rest ((src, i) :: acc)

/-- The initial `for input_name in node.input` loop (no `break`). -/
def pushAll (src : String) : List String → List (String × String) → List (String × String)
  | [], acc => acc
  | i :: rest, acc => pushAll src rest ((src, i) :: acc)

/-- The `while let Some(edge) = edges.pop()` backward walk of
`find_sub_graphs_start_end`.  Returns `some (some pair)` when a start
node is reached, `some none` when the stack empties first, and `none`
on a panic (an input edge into an undefined module) or fuel exhaustion. -/
def backWalk (net : Network) (roots : List String) (nodeEnd : String) :
    Nat → List (String × String) → List (String × String) → Option (Option (String × String))
  | _, [], _ => some none
  | 0, _ :: _, _ => none
  | fuel + 1, edge :: edges, visited =>
    if edge.2 ∈ roots then some (some (edge.2, nodeEnd))
    else if edge ∈ visited then backWalk net roots nodeEnd fuel edges visited
    else
      match mmFind net.modules edge.2 with
      | none => none
      | some node =>
        backWalk net roots nodeEnd fuel (pushEdges edge.2 roots node.input edges) (edge :: visited)

/-- The walk for one element of `trees_end`. -/
def walkFrom (net : Network) (roots : List String) (nodeEnd : String) (fuel : Nat) :
    Option (Option (String × String)) :=
  match mmFind net.modules nodeEnd with
  | none => none
  | some node => backWalk net roots nodeEnd fuel (pushAll nodeEnd node.input []) []

/-- The `for node_end in &trees_end` loop collecting `(start, end)` pairs. -/
def goEnds (net : Network) (roots : List String) (fuel : Nat) :
    List String → Option (List (String × String))
  | [] => some []
  | e :: rest =>
    match walkFrom net roots e fuel with
    | none => none
    | some r =>
      match goEnds net roots fuel rest with
      | none => none
      | some acc =>
        some (match r with
          | none => acc
          | some pr => pr :: acc)

/-- Whether a `Kind` is a `Conjunction` (the `matches!` test). -/
def isConjunction : Kind → Bool
  | .Conjunction _ => true
  | _ => false

/-- The modules whose outputs include the sink `rx`
(`penultimate` in `find_sub_graphs_start_end`). -/
def penultimates (net : Network) : List Module :=
  (net.modules.filter fun kv => decide ("rx" ∈ kv.2.output)).map fun kv => kv.2

/-- Mirrors `find_sub_graphs_start_end`.  `none` models the panics: a
missing `broadcaster` module, the two `unreachable!("Good luck")`
structural-precondition checks, and walk failures. -/
def find_sub_graphs_start_end (fuel : Nat) (net : Network) : Option (List (String × String)) :=
  match mmFind net.modules "broadcaster" with
  | none => none
  | some broadcaster =>
    let trees_start := broadcaster.output
    match penultimates net with
    | [p] =>
      if isConjunction p.kind then
        let trees_end := (net.modules.filter fun kv => decide (p.name ∈ kv.2.output)).map
          fun kv => kv.1
        goEnds net trees_start fuel trees_end
      else none
    | _ => none

/-- The `for &output in &module.output` loop of `partition`, pushing the
defined consumers of a module onto the pending stack (head = top). -/
def pushConsumers (net : Network) : List String → List Module → List Module
  | [], acc => acc
  | o :: rest, acc =>
    match mmFind net.modules o with
    | none => pushConsumers net rest acc
    | some c => pushConsumers net rest (c :: acc)

/-- The `while let Some(module) = pending.pop()` loop of `partition`. -/
def partGo (net : Network) (e : String) : Nat → List Module → ModuleMap → Option ModuleMap
  | _, [], acc => some acc
  | 0, _ :: _, _ => none
  | fuel + 1, m :: pending, acc =>
    if mmContains acc m.name then partGo net e fuel pending acc
    else
      partGo net e fuel
        (if m.name = e then pending else pushConsumers net m.output pending)
        (mmInsert acc m.name m)

/-- One `(start, end)` entry of `partition` (the Rust `Vec` pops from the
end, so `end`'s module is on top of the initial pending stack). -/
def partitionOne (net : Network) (fuel : Nat) (s e : String) : Option Network :=
  match mmFind net.modules s, mmFind net.modules e with
  | some ms, some me => (partGo net e fuel [me, ms] []).map Network.mk
  | _, _ => none

/-- Mirrors `partition`. -/
def partition (net : Network) (fuel : Nat) : List (String × String) → Option (List (String × String × Network))
  | [] => some []
  | (s, e) :: rest =>
    match partitionOne net fuel s e with
    | none => none
    | some sub => (partition net fuel rest).map fun acc => (s, e, sub) :: acc

/-- The `for (start, end, subnetwork) in subnetworks` loop of `solve`,
reducing with `lcm` over the periods `cycle_end - cycle_start`. -/
def lcmFold (F fuel : Nat) : Nat → List (String × String × Network) → Option Nat
  | acc, [] => some acc
  | acc, (s, e, sub) :: rest =>
    match calculate_cycle F fuel sub s e with
    | none => none
    | some (cs, ce) => lcmFold F fuel (Nat.lcm acc (ce - cs)) rest

/-- Mirrors `b/src/main.rs`'s `solve`. -/
def solve (F fuel wfuel : Nat) (net : Network) : Option Nat :=
  match find_sub_graphs_start_end wfuel net with
  | none => none
  | some start_end =>
    match partition net wfuel start_end with
    | none => none
    | some subnetworks => lcmFold F fuel 1 subnetworks

end B

/-!  ## Instrumentation for the tally-conservation law (claim C6) -/

/-- Adding constants to the tallies of a run result. -/
def RunResult.shift (a b : Nat) : RunResult → RunResult
  | .done n l h => .done n (l + a) (h + b)
  | .outOfFuel n q l h => .outOfFuel n q (l + a) (h + b)
  | .panic => .panic

/-- Modelled from the spec: the number of pulses the queue loop pushes onto
the queue (every delivery's productions), mirroring `runQueue`'s recursion. -/
def queueGen : Nat → Network → List Pulse → Nat
  | _, _, [] => 0
  | 0, _, _ => 0
  | fuel + 1, net, (s, r, p) :: rest =>
    if mmContains net.modules r then
      match net.pulse r p s with
      | none => 0
      | some (net', out) => out.length + queueGen fuel net' (rest ++ out)
    else queueGen fuel net rest

/-- Modelled from the spec: the pulses enqueued during one tick — the seed
pulse (counted as one low pulse), the seed delivery's productions, and all
later productions. -/
def tickEnqueued (fuel : Nat) (net : Network) : Nat :=
  match net.pulse "broadcaster" false "button" with
  | none => 1
  | some (net', out) => 1 + out.length + queueGen fuel net' out

/-- Modelled from the spec: total pulses enqueued across `n` ticks. -/
def loopEnqueued : Nat → Nat → Network → Nat
  | 0, _, _ => 0
  | n + 1, fuel, net =>
    tickEnqueued fuel net +
      match A.tick fuel net 0 0 with
      | .done net' _ _ => loopEnqueued n fuel net'
      | _ => 0

/-!  ## The first sample wiring and its network (claim C7) -/

/-- The first sample wiring of the puzzle (`test_sample_1`). -/
def sample1 : String := "broadcaster -> a, b, c
%a -> b
%b -> c
%c -> inv
&inv -> a"

/-- The network `parse_text` builds from `sample1`. -/
def net1 : Network := ⟨[
  ("a", ⟨.FlipFlop false, "a", ["broadcaster", "inv"], ["b"]⟩),
  ("b", ⟨.FlipFlop false, "b", ["broadcaster", "a"], ["c"]⟩),
  ("broadcaster", ⟨.Broadcast, "broadcaster", [], ["a", "b", "c"]⟩),
  ("c", ⟨.FlipFlop false, "c", ["broadcaster", "b"], ["inv"]⟩),
  ("inv", ⟨.Conjunction [false], "inv", ["c"], ["a"]⟩)]⟩

/-!  ## The cycle-finder snapshot (claim C9)

The snapshot used as the hash-map key in `calculate_cycle` is the whole
`Network` value with its derived structural equality.  The spec claims the
encoding is order-independent; in fact the `BTreeMap` key order is
canonical, but the `Vec<bool>` Conjunction memories (and the `input`
lists that index them) compare positionally, so two networks whose
memories agree merely as mappings can compare unequal. -/

/-- Modelled from the spec: the value a Conjunction's memory remembers for
a given source name (`memory[position of source in input]`). -/
def memLookup (input : List String) (mem : List Bool) (s : String) : Option Bool :=
  (listPos input s).bind fun i => mem.get? i

/-- Modelled from the spec: module states agree — identical FlipFlop bits,
Conjunction memories equal as mappings from input name to level. -/
def kindAgree (m1 m2 : Module) : Prop :=
  match m1.kind, m2.kind with
  | .Broadcast, .Broadcast => True
  | .FlipFlop a, .FlipFlop b => a = b
  | .Conjunction mem1, .Conjunction mem2 =>
      ∀ s, memLookup m1.input mem1 s = memLookup m2.input mem2 s
  | _, _ => False

/-- Modelled from the spec: two networks with the same modules, the same
wiring up to the order of the `input` lists, identical FlipFlop bits and
Conjunction memories that agree as mappings. -/
def agreeAsMappings (n1 n2 : Network) : Prop :=
  ∀ k, match mmFind n1.modules k, mmFind n2.modules k with
    | none, none => True
    | some m1, some m2 =>
        m1.name = m2.name ∧ m1.output = m2.output ∧ m1.input.Perm m2.input ∧ kindAgree m1 m2
    | _, _ => False

/-- The pair of networks refuting order-independence: the same Conjunction
with its two inputs (and hence its memory) stored in the two orders. -/
def cN1 : Network := ⟨[("x", ⟨.Conjunction [true, false], "x", ["pp", "q"], ["y"]⟩)]⟩

/-- See `cN1`. -/
def cN2 : Network := ⟨[("x", ⟨.Conjunction [false, true], "x", ["q", "pp"], ["y"]⟩)]⟩

/-- The key-sortedness invariant of a Rust `BTreeMap` dumped in key order. -/
def sortedKeys (l : ModuleMap) : Prop :=
  l.Pairwise fun a b => strLt a.1 b.1 = true

/-!  ## The wiring invariant and pulse validity (claim C10) -/

/-- The wiring invariant `parse_text` establishes: every module is stored
under its own name, every Conjunction memory is sized to its input list,
and whenever a module feeds a defined module it is registered in the
consumer's `input` list. -/
def Wf (net : Network) : Prop :=
  ∀ k m, mmFind net.modules k = some m →
    m.name = k ∧
    (∀ mem, m.kind = .Conjunction mem → mem.length = m.input.length) ∧
    (∀ o m', o ∈ m.output → mmFind net.modules o = some m' → k ∈ m'.input)

/-- A queued pulse whose delivery cannot hit the Conjunction sender-lookup
panic: if its destination is a defined Conjunction, its sender is one of
the registered inputs. -/
def PulseOk (net : Network) (pl : Pulse) : Prop :=
  ∀ m mem, mmFind net.modules pl.2.1 = some m → m.kind = .Conjunction mem →
    pl.1 ∈ m.input

/-- The state bits a module kind carries. -/
def Kind.bits : Kind → List Bool
  | .Broadcast => []
  | .FlipFlop b => [b]
  | .Conjunction mem => mem

/-- The constructor tag of a module kind. -/
def Kind.tag : Kind → Nat
  | .Broadcast => 0
  | .FlipFlop _ => 1
  | .Conjunction _ => 2

/-- The skeleton a pulse delivery preserves: name and wiring unchanged,
Conjunction memories keep their length. -/
def skelEq (m m' : Module) : Prop :=
  m'.name = m.name ∧ m'.input = m.input ∧ m'.output = m.output ∧
  m'.kind.tag = m.kind.tag ∧ m'.kind.bits.length = m.kind.bits.length

/-- Sortedness of the `consumes` association list. -/
def consSorted (cs : List (String × List String)) : Prop :=
  cs.Pairwise fun a b => strLt a.1 b.1 = true

/-- Lookup in the `consumes` map (missing keys give the empty set). -/
def consLookup : List (String × List String) → String → List String
  | [], _ => []
  | (k, v) :: rest, x => if k = x then v else consLookup rest x

/-- The invariant of `parse_text`'s first phase: modules are stored under
their names with empty inputs, and each module's name is recorded in
`consumes` under every one of its outputs. -/
def ParseInv (ms : ModuleMap) (cs : List (String × List String)) : Prop :=
  ∀ k m, mmFind ms k = some m →
    m.name = k ∧ m.input = [] ∧ ∀ o ∈ m.output, k ∈ consLookup cs o

/-!  ## Diverging networks and snapshot counting (claim C5) -/

/-- A network whose tick never finishes: a Conjunction feeding itself.
After the first two deliveries it emits a high pulse to itself forever. -/
def netLoop : Network :=
  ⟨[("a", ⟨.Conjunction [false, false], "a", ["broadcaster", "a"], ["a"]⟩),
    ("broadcaster", ⟨.Broadcast, "broadcaster", [], ["a"]⟩)]⟩

/-- `netLoop` after its Conjunction has recorded a high pulse from itself:
the fixed point of the diverging loop. -/
def netLoop1 : Network :=
  ⟨[("a", ⟨.Conjunction [false, true], "a", ["broadcaster", "a"], ["a"]⟩),
    ("broadcaster", ⟨.Broadcast, "broadcaster", [], ["a"]⟩)]⟩

/-!  ### The cycle finder terminates when the ticks do

A snapshot is determined by the immutable skeleton of the network plus
its state bits, and the state bits range over a finite enumerable set, so
snapshots must repeat. -/

/-- The immutable part of a module. -/
def Module.shape (m : Module) : String × List String × List String × Nat × Nat :=
  (m.name, m.input, m.output, m.kind.tag, m.kind.bits.length)

/-- The immutable part of a network. -/
def netShape (net : Network) : List (String × String × List String × List String × Nat × Nat) :=
  net.modules.map fun kv => (kv.1, kv.2.shape)

/-- The mutable state bits of a network. -/
def netState (net : Network) : List (List Bool) :=
  net.modules.map fun kv => kv.2.kind.bits

/-- The lengths of the per-module state vectors, part of the shape. -/
def netLens (net : Network) : List Nat :=
  (netShape net).map fun e => e.2.2.2.2.2

/-- Iterating the part-B tick. -/
def iterN (F : Nat) (s : String) : Nat → Network → Option Network
  | 0, net => some net
  | k + 1, net =>
    match iterN F s k net with
    | none => none
    | some net' => B.tickB F s net'

/-- All boolean vectors of a given length. -/
def allBoolVecs : Nat → List (List Bool)
  | 0 => [[]]
  | n + 1 =>
    ((allBoolVecs n).map fun v => false :: v) ++ ((allBoolVecs n).map fun v => true :: v)

/-- All state vectors matching a list of lengths. -/
def allStateVecs : List Nat → List (List (List Bool))
  | [] => [[]]
  | n :: rest =>
    (((allBoolVecs n).map fun v => (allStateVecs rest).map fun vs => v :: vs)).flatten

/-- The number of possible snapshots of a network's shape. -/
def stateBound (net : Network) : Nat := (allStateVecs (netLens net)).length

/-- The loop invariant of `calculate_cycle`: the current network is the
`step - 1`-st snapshot, `states` records exactly the earlier snapshots,
and all recorded snapshots are pairwise distinct. -/
def CycleInv (F : Nat) (s : String) (net0 net : Network)
    (states : List (Network × Nat)) (step : Nat) : Prop :=
  1 ≤ step ∧
  iterN F s (step - 1) net0 = some net ∧
  (∀ pr ∈ states, pr.2 < step ∧ iterN F s pr.2 net0 = some pr.1) ∧
  (∀ k, k < step → ∃ n, iterN F s k net0 = some n ∧ (n, k) ∈ states) ∧
  (∀ i j ni nj, i < step → j < step → iterN F s i net0 = some ni →
    iterN F s j net0 = some nj → ni = nj → i = j)

/-- A two-flip-flop chain used to exercise the cycle finder. -/
def chainNet : Network :=
  ⟨[("a", ⟨.FlipFlop false, "a", ["broadcaster"], ["b"]⟩),
    ("b", ⟨.FlipFlop false, "b", ["a"], []⟩)]⟩

/-- A small complete part-B network: two flip-flop counters of periods 8
and 2 feeding Conjunctions `k1` and `k2` into the Conjunction `pen`,
which feeds the sink `rx`. -/
def netB : Network :=
  ⟨[("a1", ⟨.FlipFlop false, "a1", ["broadcaster"], ["b1"]⟩),
    ("a2", ⟨.FlipFlop false, "a2", ["broadcaster"], ["k2"]⟩),
    ("b1", ⟨.FlipFlop false, "b1", ["a1"], ["c1x"]⟩),
    ("broadcaster", ⟨.Broadcast, "broadcaster", [], ["a1", "a2"]⟩),
    ("c1x", ⟨.FlipFlop false, "c1x", ["b1"], ["k1"]⟩),
    ("k1", ⟨.Conjunction [false], "k1", ["c1x"], ["pen"]⟩),
    ("k2", ⟨.Conjunction [false], "k2", ["a2"], ["pen"]⟩),
    ("pen", ⟨.Conjunction [false, false], "pen", ["k1", "k2"], ["rx"]⟩)]⟩

/-!  ## Basic map lemmas -/

/-- Writing back the value already stored at a key leaves the map unchanged. -/
theorem mmSet_self : ∀ (l : ModuleMap) (k : String) (v : Module),
    mmFind l k = some v → mmSet l k v = l := by
  intro l k v h
  induction l with
  | nil => simp [mmFind] at h
  | cons kv rest ih =>
    cases kv with
    | mk k0 v0 =>
      by_cases hk : k0 = k
      · subst hk
        simp [mmFind] at h
        simp [mmSet, h]
      · simp [mmFind, hk] at h
        simp [mmSet, hk, ih h]

/-- Looking up the key just written by `mmSet`. -/
theorem mmFind_mmSet_same : ∀ (l : ModuleMap) (k : String) (v w : Module),
    mmFind l k = some w → mmFind (mmSet l k v) k = some v := by
  intro l k v w h
  induction l with
  | nil => simp [mmFind] at h
  | cons kv rest ih =>
    by_cases hk : kv.1 = k
    · simp [mmSet, hk, mmFind]
    · simp [mmFind, hk] at h
      simp [mmSet, hk, mmFind, ih h]

/-- Looking up another key after `mmSet`. -/
theorem mmFind_mmSet_other : ∀ (l : ModuleMap) (k k' : String) (v : Module),
    k' ≠ k → mmFind (mmSet l k v) k' = mmFind l k' := by
  intro l k k' v hne
  induction l with
  | nil => simp [mmSet]
  | cons kv rest ih =>
    cases kv with
    | mk k0 v0 =>
      by_cases hk : k0 = k
      · subst hk
        have hne' : ¬ (k0 = k') := fun h => hne h.symm
        simp [mmSet, mmFind, hne']
      · simp [mmSet, hk, mmFind, ih]

/-!  ## Claims C1 and C2: the module transition function -/

/-- Claim C1: delivering `(sender, p)` to a Conjunction first overwrites the
memory slot at the position of `sender` in its `input` list with `p`, then
emits one identical level to every name in its `output` list, in order: low
(`false`) exactly when, after the update, every entry of the memory is
`true`, and high (`true`) otherwise. -/
theorem conjunction_records_then_nand (net : Network) (receiver sender : String) (p : Bool)
    (m : Module) (mem : List Bool) (i : Nat)
    (hfind : mmFind net.modules receiver = some m)
    (hkind : m.kind = .Conjunction mem)
    (hpos : listPos m.input sender = some i)
    (hlen : i < mem.length) :
    net.pulse receiver p sender =
      some (⟨mmSet net.modules receiver { m with kind := .Conjunction (mem.set i p) }⟩,
        m.output.map fun o => (receiver, o, if false ∈ mem.set i p then true else false)) ∧
    ((if false ∈ mem.set i p then true else false) = false ↔ ∀ b ∈ mem.set i p, b = true) := by
  constructor
  · unfold Network.pulse
    rw [hfind]
    simp only [hkind, hpos, hlen, if_pos]
    by_cases hmem : false ∈ mem.set i p <;> simp [hmem]
  · by_cases hmem : false ∈ mem.set i p
    · rw [if_pos hmem]
      constructor
      · intro h
        exact Bool.noConfusion h
      · intro hall
        exact absurd (hall false hmem) (by decide)
    · rw [if_neg hmem]
      constructor
      · intro _ b hb
        cases b with
        | false => exact absurd hb hmem
        | true => rfl
      · intro _
        rfl

/-- A concrete instance of the Conjunction law. -/
theorem conjunction_records_then_nand_witness :
    ((⟨[("x", ⟨.Conjunction [false, false], "x", ["pp", "q"], ["y", "z"]⟩)]⟩ : Network).pulse
        "x" true "q" =
      some (⟨mmSet [("x", ⟨.Conjunction [false, false], "x", ["pp", "q"], ["y", "z"]⟩)] "x"
          { (⟨.Conjunction [false, false], "x", ["pp", "q"], ["y", "z"]⟩ : Module) with
              kind := .Conjunction ([false, false].set 1 true) }⟩,
        ["y", "z"].map fun o => ("x", o, if false ∈ [false, false].set 1 true then true else false)) ∧
      ((if false ∈ [false, false].set 1 true then true else false) = false ↔
        ∀ b ∈ [false, false].set 1 true, b = true)) :=
  conjunction_records_then_nand _ "x" "q" true _ [false, false] 1 rfl rfl (by decide) (by decide)

/-- Claim C2: a high pulse leaves a FlipFlop (and the whole network) unchanged
and produces no pulses; a low pulse toggles the bit and emits the new bit's
level to every output, in order. -/
theorem flipflop_pulse (net : Network) (receiver sender : String) (b : Bool)
    (m : Module)
    (hfind : mmFind net.modules receiver = some m)
    (hkind : m.kind = .FlipFlop b) :
    net.pulse receiver true sender = some (net, []) ∧
    net.pulse receiver false sender =
      some (⟨mmSet net.modules receiver { m with kind := .FlipFlop (!b) }⟩,
        m.output.map fun o => (receiver, o, !b)) := by
  constructor
  · unfold Network.pulse
    rw [hfind]
    simp only [hkind, if_pos rfl]
    have hm : { m with kind := Kind.FlipFlop b } = m := by
      rw [← hkind]
    simp [hm, mmSet_self net.modules receiver m hfind]
  · unfold Network.pulse
    rw [hfind]
    simp [hkind]

/-- Any pulse delivery either produces no pulses or sends one level to
every output of the receiving module, in declaration order. -/
theorem pulse_out_shape (net : Network) (r s : String) (p : Bool) (net' : Network)
    (out : List Pulse) (m : Module)
    (hfind : mmFind net.modules r = some m)
    (h : net.pulse r p s = some (net', out)) :
    out = [] ∨ ∃ lvl, out = m.output.map fun o => (r, o, lvl) := by
  unfold Network.pulse at h
  rw [hfind] at h
  rcases hk : m.kind with _ | b | mem
  · simp only [hk, Option.some.injEq, Prod.mk.injEq] at h
    exact Or.inr ⟨false, h.2.symm⟩
  · cases p
    · simp only [hk] at h
      simp at h
      exact Or.inr ⟨!b, h.2.symm⟩
    · simp only [hk] at h
      simp at h
      exact Or.inl h.2
  · rcases hpos : listPos m.input s with _ | idx
    · simp only [hk, hpos] at h
      exact Option.noConfusion h
    · simp only [hk, hpos] at h
      by_cases hlen : idx < mem.length
      · rw [if_pos hlen] at h
        by_cases hmem : false ∈ mem.set idx p
        · rw [if_pos hmem] at h
          simp only [Option.some.injEq, Prod.mk.injEq] at h
          exact Or.inr ⟨true, h.2.symm⟩
        · rw [if_neg hmem] at h
          simp only [Option.some.injEq, Prod.mk.injEq] at h
          exact Or.inr ⟨false, h.2.symm⟩
      · rw [if_neg hlen] at h
        simp at h

/-- A concrete instance of the FlipFlop law. -/
theorem flipflop_pulse_witness :
    ((⟨[("f", ⟨.FlipFlop false, "f", ["src"], ["y", "z"]⟩)]⟩ : Network).pulse "f" true "src" =
      some (⟨[("f", ⟨.FlipFlop false, "f", ["src"], ["y", "z"]⟩)]⟩, []) ∧
     (⟨[("f", ⟨.FlipFlop false, "f", ["src"], ["y", "z"]⟩)]⟩ : Network).pulse "f" false "src" =
      some (⟨mmSet [("f", ⟨.FlipFlop false, "f", ["src"], ["y", "z"]⟩)] "f"
          { (⟨.FlipFlop false, "f", ["src"], ["y", "z"]⟩ : Module) with kind := .FlipFlop (!false) }⟩,
        ["y", "z"].map fun o => ("f", o, !false))) :=
  flipflop_pulse _ "f" "src" false _ rfl rfl

/-!  ## Claim C3: strict FIFO processing -/

/-- Claim C3: one iteration of either event loop removes the oldest pending
pulse; every pulse produced by delivering it goes to the back of the queue,
behind all already-pending pulses, in the receiving module's output
declaration order, and the pending pulses keep their order.  This is the
step law of both the part-A loop (`runQueue`, which also tallies the popped
pulse) and the part-B loop (`B.runPulses`). -/
theorem fifo_step (net net' : Network) (fuel : Nat) (s r : String) (p : Bool)
    (rest out : List Pulse) (low high : Nat) (m : Module)
    (hfind : mmFind net.modules r = some m)
    (hp : net.pulse r p s = some (net', out)) :
    (out = [] ∨ ∃ lvl, out = m.output.map fun o => (r, o, lvl)) ∧
    runQueue (fuel + 1) net ((s, r, p) :: rest) low high =
      runQueue fuel net' (rest ++ out)
        (if p then low else low + 1) (if p then high + 1 else high) ∧
    B.runPulses (fuel + 1) net ((s, r, p) :: rest) = B.runPulses fuel net' (rest ++ out) := by
  have hc : mmContains net.modules r = true := by simp [mmContains, hfind]
  refine ⟨pulse_out_shape net r s p net' out m hfind hp, ?_, ?_⟩
  · unfold runQueue
    simp only [hc, if_true, hp]
    rw [← runQueue.eq_def]
  · unfold B.runPulses
    simp only [hc, if_true, hp]
    rw [← B.runPulses.eq_def]

/-- A concrete instance of the FIFO step law. -/
theorem fifo_step_witness :
    (([("f", "g", true)] = [] ∨ ∃ lvl, [("f", "g", true)] =
        ["g"].map fun o => ("f", o, lvl)) ∧
    runQueue (5 + 1) (⟨[("f", ⟨.FlipFlop false, "f", [], ["g"]⟩)]⟩ : Network)
        (("u", "f", false) :: [("u", "g", true)]) 0 0 =
      runQueue 5 ⟨[("f", ⟨.FlipFlop true, "f", [], ["g"]⟩)]⟩
        ([("u", "g", true)] ++ [("f", "g", true)])
        (if false then 0 else 0 + 1) (if false then 0 + 1 else 0) ∧
    B.runPulses (5 + 1) (⟨[("f", ⟨.FlipFlop false, "f", [], ["g"]⟩)]⟩ : Network)
        (("u", "f", false) :: [("u", "g", true)]) =
      B.runPulses 5 ⟨[("f", ⟨.FlipFlop true, "f", [], ["g"]⟩)]⟩
        ([("u", "g", true)] ++ [("f", "g", true)])) :=
  fifo_step ⟨[("f", ⟨.FlipFlop false, "f", [], ["g"]⟩)]⟩ ⟨[("f", ⟨.FlipFlop true, "f", [], ["g"]⟩)]⟩
    5 "u" "f" false [("u", "g", true)] [("f", "g", true)] 0 0
    ⟨.FlipFlop false, "f", [], ["g"]⟩ (by decide) (by decide)

/-- The queue loop threads its tallies additively. -/
theorem runQueue_shift (fuel : Nat) : ∀ net q l h a b,
    runQueue fuel net q (l + a) (h + b) = (runQueue fuel net q l h).shift a b := by
  induction fuel with
  | zero =>
    intro net q l h a b
    cases q <;> simp [runQueue, RunResult.shift]
  | succ fuel ih =>
    intro net q l h a b
    cases q with
    | nil => simp [runQueue, RunResult.shift]
    | cons pl rest =>
      obtain ⟨s, r, p⟩ := pl
      have h1 : (if p then l + a else l + a + 1) = (if p then l else l + 1) + a := by
        cases p <;> simp [Nat.add_right_comm]
      have h2 : (if p then h + b + 1 else h + b) = (if p then h + 1 else h) + b := by
        cases p <;> simp [Nat.add_right_comm]
      simp only [runQueue]
      cases hc : mmContains net.modules r
      · simp only [hc, Bool.false_eq_true, if_false, h1, h2, ih]
      · simp only [hc, if_true]
        cases hp : net.pulse r p s with
        | none => simp [RunResult.shift]
        | some pr =>
          obtain ⟨net2, out⟩ := pr
          simp only [h1, h2, ih]

/-- One tick threads its tallies additively. -/
theorem tick_shift (fuel : Nat) (net : Network) (l h : Nat) :
    A.tick fuel net l h = (A.tick fuel net 0 0).shift l h := by
  unfold A.tick
  cases hp : net.pulse "broadcaster" false "button" with
  | none => simp [RunResult.shift]
  | some pr =>
    obtain ⟨net2, out⟩ := pr
    simp only []
    have hs := runQueue_shift fuel net2 out (0 + 1) 0 l h
    rw [show (0 : Nat) + 1 + l = l + 1 by omega, show (0 : Nat) + h = h by omega] at hs
    exact hs

/-- The queue loop tallies exactly the pulses it pops: queue length plus
everything generated along the way. -/
theorem runQueue_tally (fuel : Nat) : ∀ net q l h net' l' h',
    runQueue fuel net q l h = .done net' l' h' →
    l' + h' = l + h + q.length + queueGen fuel net q := by
  induction fuel with
  | zero =>
    intro net q l h net' l' h' hrun
    cases q with
    | nil =>
      simp [runQueue] at hrun
      simp [queueGen, hrun]
    | cons pl rest => simp [runQueue] at hrun
  | succ fuel ih =>
    intro net q l h net' l' h' hrun
    cases q with
    | nil =>
      simp [runQueue] at hrun
      simp [queueGen, hrun]
    | cons pl rest =>
      obtain ⟨s, r, p⟩ := pl
      simp only [runQueue] at hrun
      cases hc : mmContains net.modules r
      · rw [hc] at hrun
        simp only [Bool.false_eq_true, if_false] at hrun
        have hthis := ih net rest _ _ _ _ _ hrun
        simp only [queueGen, hc, Bool.false_eq_true, if_false, List.length_cons]
        cases p <;> simp at hthis <;> omega
      · rw [hc] at hrun
        simp only [if_true] at hrun
        cases hp : net.pulse r p s with
        | none => rw [hp] at hrun; exact RunResult.noConfusion hrun
        | some pr =>
          obtain ⟨net2, out⟩ := pr
          rw [hp] at hrun
          have hthis := ih net2 (rest ++ out) _ _ _ _ _ hrun
          simp only [queueGen, hc, if_true, hp, List.length_append, List.length_cons] at hthis ⊢
          cases p <;> simp at hthis <;> omega

/-- One tick tallies exactly the pulses it enqueued. -/
theorem tick_tally (fuel : Nat) (net : Network) (l h : Nat) (net' : Network) (l' h' : Nat)
    (ht : A.tick fuel net l h = .done net' l' h') :
    l' + h' = l + h + tickEnqueued fuel net := by
  unfold A.tick at ht
  unfold tickEnqueued
  cases hp : net.pulse "broadcaster" false "button" with
  | none => rw [hp] at ht; exact RunResult.noConfusion ht
  | some pr =>
    obtain ⟨net2, out⟩ := pr
    rw [hp] at ht
    simp only [hp]
    have := runQueue_tally fuel net2 out (l + 1) h _ _ _ ht
    omega

/-- Claim C6: after running `n` ticks of the part-A counter, the sum of the
low and high tallies equals the total number of pulses enqueued across all
`n` ticks, counting each tick's seed pulse (button to broadcaster, low) as
one pulse; pulses to undefined modules are popped and tallied like any
others, and nothing is counted twice or dropped. -/
theorem tally_conservation : ∀ (n fuel : Nat) (net : Network) (l h : Nat)
    (net' : Network) (l' h' : Nat),
    A.solveLoop n fuel net l h = .done net' l' h' →
    l' + h' = l + h + loopEnqueued n fuel net := by
  intro n
  induction n with
  | zero =>
    intro fuel net l h net' l' h' hrun
    simp [A.solveLoop] at hrun
    simp [loopEnqueued, hrun]
  | succ n ih =>
    intro fuel net l h net' l' h' hrun
    simp only [A.solveLoop] at hrun
    rw [tick_shift fuel net l h] at hrun
    cases ht : A.tick fuel net 0 0 with
    | done net0 a b =>
      rw [ht] at hrun
      simp only [RunResult.shift] at hrun
      have hab : a + b = 0 + 0 + tickEnqueued fuel net := tick_tally fuel net 0 0 net0 a b ht
      have := ih fuel net0 (a + l) (b + h) net' l' h' hrun
      simp only [loopEnqueued, ht]
      omega
    | outOfFuel n0 q0 a b =>
      rw [ht] at hrun
      exact RunResult.noConfusion hrun
    | panic =>
      rw [ht] at hrun
      exact RunResult.noConfusion hrun

/-- A concrete instance of tally conservation: two ticks on a one-flip-flop
network. -/
theorem tally_conservation_witness :
    5 + 1 = 0 + 0 + loopEnqueued 2 10 ⟨[("broadcaster", ⟨.Broadcast, "broadcaster", [], ["f"]⟩),
        ("f", ⟨.FlipFlop false, "f", ["broadcaster"], ["out"]⟩)]⟩ :=
  tally_conservation 2 10
    ⟨[("broadcaster", ⟨.Broadcast, "broadcaster", [], ["f"]⟩),
        ("f", ⟨.FlipFlop false, "f", ["broadcaster"], ["out"]⟩)]⟩ 0 0
    ⟨[("broadcaster", ⟨.Broadcast, "broadcaster", [], ["f"]⟩),
        ("f", ⟨.FlipFlop false, "f", ["broadcaster"], ["out"]⟩)]⟩ 5 1 (by decide)

/-- Parsing the first sample produces `net1`. -/
theorem parse_sample1 : parse_text sample1 = some net1 := by decide

/-- One button press on `net1` returns to the initial state after tallying
8 low and 4 high pulses. -/
theorem tick_net1 (l h : Nat) : A.tick 100 net1 l h = .done net1 (l + 8) (h + 4) := by
  have h0 : A.tick 100 net1 0 0 = .done net1 8 4 := by decide
  rw [tick_shift 100 net1 l h, h0]
  simp [RunResult.shift, Nat.add_comm]

/-- Any number of presses on `net1`: the tallies grow linearly. -/
theorem solveLoop_net1 : ∀ (n l h : Nat),
    A.solveLoop n 100 net1 l h = .done net1 (l + 8 * n) (h + 4 * n) := by
  intro n
  induction n with
  | zero => intro l h; simp [A.solveLoop]
  | succ n ih =>
    intro l h
    simp only [A.solveLoop, tick_net1]
    rw [ih (l + 8) (h + 4)]
    congr 1 <;> ring

/-- The part-A answer on the first sample. -/
theorem solveA_net1 : A.solve 100 net1 = some 32000000 := by
  unfold A.solve
  rw [solveLoop_net1 1000 0 0]

/-- Claim C7: the part-A counter runs exactly 1000 ticks with cumulative
tallies and returns `low * high`; on the sample wiring
`broadcaster -> a, b, c / %a -> b / %b -> c / %c -> inv / &inv -> a` the
result is 32000000. -/
theorem part_a_sample1 :
    parse_text sample1 = some net1 ∧ A.solve 100 net1 = some 32000000 :=
  ⟨parse_sample1, solveA_net1⟩

/-!  ## Claim C8: the part-B structural precondition -/

/-- Claim C8: when the network does not have exactly one module feeding the
sink `rx`, or the unique such module is not a Conjunction, the part-B
pipeline fails fatally (`find_sub_graphs_start_end` and `solve` return
`none`), whatever fuel it is given — i.e. before any simulation runs.  The
part-A counter is unaffected: on the first sample, which has no module
feeding `rx` at all, part B fails while part A still returns 32000000. -/
theorem decomposition_precondition :
    (∀ (net : Network) (wfuel F fuel : Nat),
      ((B.penultimates net).length ≠ 1 ∨
        ∃ m, B.penultimates net = [m] ∧ B.isConjunction m.kind = false) →
      B.find_sub_graphs_start_end wfuel net = none ∧ B.solve F fuel wfuel net = none) ∧
    (B.penultimates net1).length = 0 ∧
    B.solve 100 100 100 net1 = none ∧
    A.solve 100 net1 = some 32000000 := by
  have main : ∀ (net : Network) (wfuel : Nat),
      ((B.penultimates net).length ≠ 1 ∨
        ∃ m, B.penultimates net = [m] ∧ B.isConjunction m.kind = false) →
      B.find_sub_graphs_start_end wfuel net = none := by
    intro net wfuel h
    unfold B.find_sub_graphs_start_end
    cases hb : mmFind net.modules "broadcaster" with
    | none => rfl
    | some bc =>
      simp only []
      cases hpen : B.penultimates net with
      | nil => rfl
      | cons p t =>
        cases t with
        | nil =>
          rcases h with h | ⟨m, hm, hconj⟩
          · rw [hpen] at h
            simp at h
          · rw [hpen] at hm
            obtain ⟨rfl⟩ : p = m := by injection hm
            simp only [hconj, Bool.false_eq_true, if_false]
          | cons q t2 => rfl
  have solve_none : ∀ (net : Network) (wfuel F fuel : Nat),
      B.find_sub_graphs_start_end wfuel net = none → B.solve F fuel wfuel net = none := by
    intro net wfuel F fuel hf
    unfold B.solve
    rw [hf]
  refine ⟨fun net wfuel F fuel h => ⟨main net wfuel h, solve_none net wfuel F fuel (main net wfuel h)⟩,
    by decide, ?_, solveA_net1⟩
  exact solve_none net1 100 100 100 (main net1 100 (Or.inl (by decide)))

/-- A concrete application of the precondition theorem. -/
theorem decomposition_precondition_witness :
    B.find_sub_graphs_start_end 7 net1 = none ∧ B.solve 3 4 7 net1 = none :=
  decomposition_precondition.1 net1 7 3 4 (Or.inl (by decide))

/-- Claim C9 is false: `cN1` and `cN2` agree as mappings (the memory of
`x` remembers `true` for `pp` and `false` for `q` in both), yet the two
snapshots compare unequal, because the derived equality is positional. -/
theorem snapshot_not_order_independent : agreeAsMappings cN1 cN2 ∧ cN1 ≠ cN2 := by
  constructor
  · intro k
    by_cases hk : ("x" : String) = k
    · rw [← hk]
      simp only [cN1, cN2, mmFind, if_pos rfl]
      refine ⟨rfl, rfl, by decide, ?_⟩
      intro s
      by_cases h1 : ("pp" : String) = s
      · rw [← h1]
        decide
      · by_cases h2 : ("q" : String) = s
        · rw [← h2]
          decide
        · simp [memLookup, listPos, h1, h2]
    · simp [cN1, cN2, mmFind, hk]
  · decide

/-- Characters with equal code points are equal. -/
theorem char_toNat_inj (a b : Char) (h : a.toNat = b.toNat) : a = b :=
  Char.ext (UInt32.ext h)

/-- `strLtAux` is connex: mutually non-less lists are equal. -/
theorem strLtAux_conn : ∀ (as bs : List Char),
    strLtAux as bs = false → strLtAux bs as = false → as = bs := by
  intro as
  induction as with
  | nil =>
    intro bs h1 h2
    cases bs with
    | nil => rfl
    | cons b bs => simp [strLtAux] at h1
  | cons a as ih =>
    intro bs h1 h2
    cases bs with
    | nil => simp [strLtAux] at h2
    | cons b bs =>
      by_cases hab : a.toNat < b.toNat
      · simp [strLtAux, hab] at h1
      · by_cases hba : b.toNat < a.toNat
        · simp [strLtAux, hba] at h2
        · have hchar : a = b := char_toNat_inj a b (by omega)
          subst hchar
          simp only [strLtAux, if_neg hab] at h1 h2
          rw [ih bs h1 h2]

/-- `strLt` is connex. -/
theorem strLt_conn (a b : String) (h1 : strLt a b = false) (h2 : strLt b a = false) :
    a = b := by
  cases a with
  | mk da =>
    cases b with
    | mk db =>
      have : da = db := strLtAux_conn da db h1 h2
      rw [this]

/-- `strLtAux` is asymmetric. -/
theorem strLtAux_asymm : ∀ (as bs : List Char),
    strLtAux as bs = true → strLtAux bs as = true → False := by
  intro as
  induction as with
  | nil =>
    intro bs h1 h2
    cases bs with
    | nil => simp [strLtAux] at h1
    | cons b bs => simp [strLtAux] at h2
  | cons a as ih =>
    intro bs h1 h2
    cases bs with
    | nil => simp [strLtAux] at h1
    | cons b bs =>
      by_cases hab : a.toNat < b.toNat
      · have hba : ¬ b.toNat < a.toNat := by omega
        simp [strLtAux, hab, hba] at h2
      · by_cases hba : b.toNat < a.toNat
        · simp [strLtAux, hab, hba] at h1
        · simp only [strLtAux, if_neg hab, if_neg hba] at h1 h2
          exact ih bs h1 h2

/-- `strLt` is asymmetric. -/
theorem strLt_asymm (a b : String) (h1 : strLt a b = true) (h2 : strLt b a = true) :
    False := strLtAux_asymm a.data b.data h1 h2

/-- `strLt` is irreflexive. -/
theorem strLt_irrefl (a : String) : strLt a a = false := by
  cases hlt : strLt a a
  · rfl
  · exact absurd (strLt_asymm a a hlt hlt) (fun h => h)

/-- Keys found by `mmFind` are present in the list. -/
theorem mmFind_some_mem : ∀ (l : ModuleMap) (k : String) (v : Module),
    mmFind l k = some v → ∃ x ∈ l, x.1 = k := by
  intro l
  induction l with
  | nil => intro k v h; simp [mmFind] at h
  | cons kv t ih =>
    intro k v h
    by_cases hk : kv.1 = k
    · exact ⟨kv, List.mem_cons_self kv t, hk⟩
    · simp only [mmFind, if_neg hk] at h
      obtain ⟨x, hx, hxk⟩ := ih k v h
      exact ⟨x, List.mem_cons_of_mem kv hx, hxk⟩

/-- A key absent from a list is not found. -/
theorem mmFind_none_of_ne : ∀ (l : ModuleMap) (k : String),
    (∀ x ∈ l, x.1 ≠ k) → mmFind l k = none := by
  intro l
  induction l with
  | nil => intro k _; rfl
  | cons kv t ih =>
    intro k h
    have hk : kv.1 ≠ k := h kv (List.mem_cons_self kv t)
    simp only [mmFind, if_neg hk]
    exact ih k fun x hx => h x (List.mem_cons_of_mem kv hx)

/-- Looking up the head key. -/
theorem mmFind_head (kv : String × Module) (t : ModuleMap) :
    mmFind (kv :: t) kv.1 = some kv.2 := by
  obtain ⟨k, v⟩ := kv
  simp [mmFind]

/-- Looking up a key different from the head key. -/
theorem mmFind_cons_ne (kv : String × Module) (t : ModuleMap) (k : String)
    (h : kv.1 ≠ k) : mmFind (kv :: t) k = mmFind t k := by
  obtain ⟨k0, v0⟩ := kv
  simp only at h
  simp [mmFind, h]

/-- Two sorted module maps with the same bindings are equal. -/
theorem mm_ext : ∀ (l1 l2 : ModuleMap), sortedKeys l1 → sortedKeys l2 →
    (∀ k, mmFind l1 k = mmFind l2 k) → l1 = l2 := by
  intro l1
  induction l1 with
  | nil =>
    intro l2 _ _ h
    cases l2 with
    | nil => rfl
    | cons kv t =>
      have hthis := h kv.1
      rw [mmFind_head kv t] at hthis
      simp [mmFind] at hthis
  | cons kv t1 ih =>
    intro l2 hs1 hs2 h
    cases l2 with
    | nil =>
      have hthis := h kv.1
      rw [mmFind_head kv t1] at hthis
      simp [mmFind] at hthis
    | cons kv2 t2 =>
      by_cases hkk : kv.1 = kv2.1
      · have hfind2 : mmFind (kv2 :: t2) kv.1 = some kv2.2 := by
          rw [hkk, mmFind_head kv2 t2]
        have hv : kv.2 = kv2.2 := by
          have hthis := h kv.1
          rw [mmFind_head kv t1, hfind2] at hthis
          injection hthis
        have hhead1 : ∀ x ∈ t1, x.1 ≠ kv.1 := by
          intro x hx he
          have hlt := (List.pairwise_cons.mp hs1).1 x hx
          rw [he] at hlt
          exact strLt_asymm _ _ hlt hlt
        have hhead2 : ∀ x ∈ t2, x.1 ≠ kv.1 := by
          intro x hx he
          have hlt := (List.pairwise_cons.mp hs2).1 x hx
          rw [he, ← hkk] at hlt
          exact strLt_asymm _ _ hlt hlt
        have htails : t1 = t2 := by
          refine ih t2 (List.Pairwise.sublist (List.sublist_cons_self kv t1) hs1)
            (List.Pairwise.sublist (List.sublist_cons_self kv2 t2) hs2) ?_
          intro k
          by_cases hk : k = kv.1
          · rw [hk, mmFind_none_of_ne t1 kv.1 hhead1, mmFind_none_of_ne t2 kv.1 hhead2]
          · have hk1 : kv.1 ≠ k := fun he => hk he.symm
            have hk2 : kv2.1 ≠ k := fun he => hk (by rw [← he, hkk])
            have hthis := h k
            rw [mmFind_cons_ne kv t1 k hk1, mmFind_cons_ne kv2 t2 k hk2] at hthis
            exact hthis
        have hvkv : kv = kv2 := by
          obtain ⟨a, b⟩ := kv
          obtain ⟨c, d⟩ := kv2
          simp only at hkk hv
          rw [hkk, hv]
        rw [htails, hvkv]
      · exfalso
        have hkk2 : kv2.1 ≠ kv.1 := fun he => hkk he.symm
        have ha : mmFind t2 kv.1 = some kv.2 := by
          have hthis := h kv.1
          rw [mmFind_head kv t1, mmFind_cons_ne kv2 t2 kv.1 hkk2] at hthis
          exact hthis.symm
        have hb : mmFind t1 kv2.1 = some kv2.2 := by
          have hthis := h kv2.1
          rw [mmFind_cons_ne kv t1 kv2.1 hkk, mmFind_head kv2 t2] at hthis
          exact hthis
        obtain ⟨x, hx, hxk⟩ := mmFind_some_mem t2 kv.1 kv.2 ha
        obtain ⟨y, hy, hyk⟩ := mmFind_some_mem t1 kv2.1 kv2.2 hb
        have h1 : strLt kv2.1 kv.1 = true := by
          have hlt := (List.pairwise_cons.mp hs2).1 x hx
          rwa [hxk] at hlt
        have h2 : strLt kv.1 kv2.1 = true := by
          have hlt := (List.pairwise_cons.mp hs1).1 y hy
          rwa [hyk] at hlt
        exact strLt_asymm _ _ h2 h1

/-- Claim C9, amended: the snapshot key is the `Network` value itself, so
snapshot equality is exactly structural equality of the module maps.  It is
independent of how the sorted map was assembled — two sorted maps with the
same bindings are equal networks — but it is positional in each module's
`input` list and Conjunction memory vector, so it is not order-independent
in the spec's sense (see the counterexample). -/
theorem snapshot_structural_equality (n1 n2 : Network)
    (hs1 : sortedKeys n1.modules) (hs2 : sortedKeys n2.modules)
    (h : ∀ k, mmFind n1.modules k = mmFind n2.modules k) : n1 = n2 := by
  cases n1 with
  | mk l1 =>
    cases n2 with
    | mk l2 =>
      have : l1 = l2 := mm_ext l1 l2 hs1 hs2 h
      rw [this]

/-- A concrete application of the snapshot-equality theorem. -/
theorem snapshot_structural_equality_witness : cN1 = cN1 :=
  snapshot_structural_equality cN1 cN1 (by simp [cN1, sortedKeys])
    (by simp [cN1, sortedKeys]) (fun k => rfl)

/-- A module whose skeleton matches a Conjunction is a Conjunction with a
memory of the same size. -/
theorem skelEq_conj (m m' : Module) (h : skelEq m m') (mem' : List Bool)
    (hk : m'.kind = .Conjunction mem') :
    ∃ mem, m.kind = .Conjunction mem ∧ mem'.length = mem.length := by
  obtain ⟨_, _, _, ht, hb⟩ := h
  rw [hk] at ht hb
  cases hm : m.kind with
  | Broadcast =>
    rw [hm] at ht
    simp [Kind.tag] at ht
  | FlipFlop b =>
    rw [hm] at ht
    simp [Kind.tag] at ht
  | Conjunction mem =>
    rw [hm] at hb
    exact ⟨mem, rfl, by simpa [Kind.bits] using hb⟩

/-- `listPos` finds every member, within bounds. -/
theorem listPos_of_mem : ∀ (l : List String) (s : String), s ∈ l →
    ∃ i, listPos l s = some i ∧ i < l.length := by
  intro l
  induction l with
  | nil => intro s hs; cases hs
  | cons x rest ih =>
    intro s hs
    by_cases hx : x = s
    · exact ⟨0, by simp [listPos, hx], by simp⟩
    · have hs' : s ∈ rest := by
        cases hs with
        | head => exact absurd rfl hx
        | tail _ h => exact h
      obtain ⟨i, hi, hlen⟩ := ih s hs'
      refine ⟨i + 1, by simp [listPos, hx, hi], ?_⟩
      simp only [List.length_cons]
      omega

/-- On a well-formed network, delivering a valid queued pulse to a defined
module always succeeds. -/
theorem pulse_some (net : Network) (s r : String) (p : Bool) (m : Module)
    (hW : Wf net) (hfind : mmFind net.modules r = some m)
    (hok : PulseOk net (s, r, p)) :
    ∃ net' out, net.pulse r p s = some (net', out) := by
  unfold Network.pulse
  rw [hfind]
  rcases hk : m.kind with _ | b | mem
  · simp only [hk]
    exact ⟨_, _, rfl⟩
  · cases p
    · simp only [hk]
      exact ⟨_, _, rfl⟩
    · simp only [hk]
      exact ⟨_, _, rfl⟩
  · have hmem : s ∈ m.input := hok m mem hfind hk
    obtain ⟨i, hi, hlen⟩ := listPos_of_mem m.input s hmem
    have hlen2 : i < mem.length := by
      rw [(hW r m hfind).2.1 mem hk]
      exact hlen
    simp only [hk, hi, hlen2, if_pos]
    by_cases hf : false ∈ mem.set i p
    · rw [if_pos hf]
      exact ⟨_, _, rfl⟩
    · rw [if_neg hf]
      exact ⟨_, _, rfl⟩

/-- A successful delivery rewrites exactly the receiver's module, keeping
its skeleton. -/
theorem pulse_mmSet (net : Network) (s r : String) (p : Bool) (net' : Network)
    (out : List Pulse) (hp : net.pulse r p s = some (net', out)) :
    ∃ m m', mmFind net.modules r = some m ∧ skelEq m m' ∧
      net'.modules = mmSet net.modules r m' := by
  unfold Network.pulse at hp
  cases hfind : mmFind net.modules r with
  | none => rw [hfind] at hp; exact Option.noConfusion hp
  | some m =>
    rw [hfind] at hp
    refine ⟨m, ?_⟩
    rcases hk : m.kind with _ | b | mem
    · simp only [hk, Option.some.injEq, Prod.mk.injEq] at hp
      exact ⟨{ m with kind := .Broadcast }, rfl,
        ⟨rfl, rfl, rfl, by simp [hk, Kind.tag], by simp [hk, Kind.bits]⟩,
        by rw [← hp.1]⟩
    · cases p
      · simp only [hk] at hp
        simp at hp
        exact ⟨{ m with kind := .FlipFlop (!b) }, rfl,
          ⟨rfl, rfl, rfl, by simp [hk, Kind.tag], by simp [hk, Kind.bits]⟩,
          by rw [← hp.1]⟩
      · simp only [hk] at hp
        simp at hp
        exact ⟨{ m with kind := .FlipFlop b }, rfl,
          ⟨rfl, rfl, rfl, by simp [hk, Kind.tag], by simp [hk, Kind.bits]⟩,
          by rw [← hp.1]⟩
    · rcases hpos : listPos m.input s with _ | idx
      · simp only [hk, hpos] at hp
        exact Option.noConfusion hp
      · simp only [hk, hpos] at hp
        by_cases hlen : idx < mem.length
        · rw [if_pos hlen] at hp
          by_cases hf : false ∈ mem.set idx p
          · rw [if_pos hf] at hp
            simp only [Option.some.injEq, Prod.mk.injEq] at hp
            exact ⟨{ m with kind := .Conjunction (mem.set idx p) }, rfl,
              ⟨rfl, rfl, rfl, by simp [hk, Kind.tag], by simp [hk, Kind.bits, List.length_set]⟩,
              by rw [← hp.1]⟩
          · rw [if_neg hf] at hp
            simp only [Option.some.injEq, Prod.mk.injEq] at hp
            exact ⟨{ m with kind := .Conjunction (mem.set idx p) }, rfl,
              ⟨rfl, rfl, rfl, by simp [hk, Kind.tag], by simp [hk, Kind.bits, List.length_set]⟩,
              by rw [← hp.1]⟩
        · rw [if_neg hlen] at hp
          simp at hp

/-- Well-formedness survives a pulse delivery. -/
theorem Wf_pulse (net : Network) (s r : String) (p : Bool) (net' : Network)
    (out : List Pulse) (hW : Wf net) (hp : net.pulse r p s = some (net', out)) :
    Wf net' := by
  obtain ⟨m, m', hfind, hskel, hmod⟩ := pulse_mmSet net s r p net' out hp
  intro k mk hk
  rw [hmod] at hk
  obtain ⟨hWm1, hWm2, hWm3⟩ := hW r m hfind
  by_cases hkr : k = r
  · rw [hkr] at hk ⊢
    rw [mmFind_mmSet_same _ _ _ _ hfind] at hk
    injection hk with hk
    rw [← hk]
    refine ⟨hskel.1.trans hWm1, ?_, ?_⟩
    · intro mem' hmem'
      obtain ⟨mem, hmemk, hlen⟩ := skelEq_conj m m' hskel mem' hmem'
      rw [hlen, hskel.2.1]
      exact hWm2 mem hmemk
    · intro o mo ho hfo
      rw [hmod] at hfo
      rw [hskel.2.2.1] at ho
      by_cases hor : o = r
      · rw [hor, mmFind_mmSet_same _ _ _ _ hfind] at hfo
        injection hfo with hfo
        rw [← hfo, hskel.2.1]
        rw [hor] at ho
        exact hWm3 r m ho hfind
      · rw [mmFind_mmSet_other _ _ _ _ hor] at hfo
        exact hWm3 o mo ho hfo
  · rw [mmFind_mmSet_other _ _ _ _ hkr] at hk
    obtain ⟨hk1, hk2, hk3⟩ := hW k mk hk
    refine ⟨hk1, hk2, ?_⟩
    intro o mo ho hfo
    rw [hmod] at hfo
    by_cases hor : o = r
    · rw [hor, mmFind_mmSet_same _ _ _ _ hfind] at hfo
      injection hfo with hfo
      rw [← hfo, hskel.2.1]
      rw [hor] at ho
      exact hk3 r m ho hfind
    · rw [mmFind_mmSet_other _ _ _ _ hor] at hfo
      exact hk3 o mo ho hfo

/-- Validity of a pending pulse survives a delivery elsewhere. -/
theorem PulseOk_pulse (net : Network) (s r : String) (p : Bool) (net' : Network)
    (out : List Pulse) (pl : Pulse) (hok : PulseOk net pl)
    (hp : net.pulse r p s = some (net', out)) : PulseOk net' pl := by
  obtain ⟨m, m', hfind, hskel, hmod⟩ := pulse_mmSet net s r p net' out hp
  intro mm mem hfm hkind
  rw [hmod] at hfm
  by_cases hor : pl.2.1 = r
  · rw [hor, mmFind_mmSet_same _ _ _ _ hfind] at hfm
    injection hfm with hfm
    rw [← hfm] at hkind ⊢
    rw [hskel.2.1]
    obtain ⟨mem0, hk0, _⟩ := skelEq_conj m m' hskel mem hkind
    exact hok m mem0 (by rw [hor]; exact hfind) hk0
  · rw [mmFind_mmSet_other _ _ _ _ hor] at hfm
    exact hok mm mem hfm hkind

/-- Every pulse a delivery produces is valid in the resulting network. -/
theorem out_PulseOk (net : Network) (s r : String) (p : Bool) (net' : Network)
    (out : List Pulse) (m : Module) (hW : Wf net)
    (hfind : mmFind net.modules r = some m)
    (hp : net.pulse r p s = some (net', out)) :
    ∀ pl ∈ out, PulseOk net' pl := by
  obtain ⟨m0, m', hfind0, hskel, hmod⟩ := pulse_mmSet net s r p net' out hp
  rw [hfind] at hfind0
  injection hfind0 with hfind0
  subst hfind0
  rcases pulse_out_shape net r s p net' out m hfind hp with h0 | ⟨lvl, hmap⟩
  · rw [h0]
    intro pl hpl
    cases hpl
  · rw [hmap]
    intro pl hpl
    obtain ⟨o, ho, rfl⟩ := List.mem_map.mp hpl
    intro mm mem hfm hkind
    simp only at hfm ⊢
    rw [hmod] at hfm
    by_cases hor : o = r
    · rw [hor, mmFind_mmSet_same _ _ _ _ hfind] at hfm
      injection hfm with hfm
      rw [← hfm, hskel.2.1]
      rw [hor] at ho
      exact (hW r m hfind).2.2 r m ho hfind
    · rw [mmFind_mmSet_other _ _ _ _ hor] at hfm
      exact (hW r m hfind).2.2 o mm ho hfm

/-- The part-A queue loop never panics on a well-formed network fed with
valid pulses: only successful completion or fuel exhaustion can occur. -/
theorem runQueue_no_panic : ∀ (fuel : Nat) (net : Network) (q : List Pulse) (l h : Nat),
    Wf net → (∀ pl ∈ q, PulseOk net pl) → runQueue fuel net q l h ≠ .panic := by
  intro fuel
  induction fuel with
  | zero =>
    intro net q l h _ _
    cases q <;> simp [runQueue]
  | succ fuel ih =>
    intro net q l h hW hq
    cases q with
    | nil => simp [runQueue]
    | cons pl rest =>
      obtain ⟨s, r, p⟩ := pl
      simp only [runQueue]
      cases hc : mmContains net.modules r
      · simp only [hc, Bool.false_eq_true, if_false]
        exact ih net rest _ _ hW fun x hx => hq x (List.mem_cons_of_mem _ hx)
      · simp only [hc, if_true]
        have hfind : ∃ m, mmFind net.modules r = some m := by
          unfold mmContains at hc
          cases hm : mmFind net.modules r with
          | none => rw [hm] at hc; simp at hc
          | some m => exact ⟨m, rfl⟩
        obtain ⟨m, hm⟩ := hfind
        obtain ⟨net', out, hp⟩ :=
          pulse_some net s r p m hW hm (hq _ (List.mem_cons_self _ _))
        rw [hp]
        refine ih net' (rest ++ out) _ _ (Wf_pulse net s r p net' out hW hp) ?_
        intro x hx
        rcases List.mem_append.mp hx with hx | hx
        · exact PulseOk_pulse net s r p net' out x (hq x (List.mem_cons_of_mem _ hx)) hp
        · exact out_PulseOk net s r p net' out m hW hm hp x hx

/-- The part-B queue loop never panics on a well-formed network fed with
valid pulses. -/
theorem runPulses_no_panic : ∀ (fuel : Nat) (net : Network) (q : List Pulse),
    Wf net → (∀ pl ∈ q, PulseOk net pl) → B.runPulses fuel net q ≠ .panic := by
  intro fuel
  induction fuel with
  | zero =>
    intro net q _ _
    cases q <;> simp [B.runPulses]
  | succ fuel ih =>
    intro net q hW hq
    cases q with
    | nil => simp [B.runPulses]
    | cons pl rest =>
      obtain ⟨s, r, p⟩ := pl
      simp only [B.runPulses]
      cases hc : mmContains net.modules r
      · simp only [hc, Bool.false_eq_true, if_false]
        exact ih net rest hW fun x hx => hq x (List.mem_cons_of_mem _ hx)
      · simp only [hc, if_true]
        have hfind : ∃ m, mmFind net.modules r = some m := by
          unfold mmContains at hc
          cases hm : mmFind net.modules r with
          | none => rw [hm] at hc; simp at hc
          | some m => exact ⟨m, rfl⟩
        obtain ⟨m, hm⟩ := hfind
        obtain ⟨net', out, hp⟩ :=
          pulse_some net s r p m hW hm (hq _ (List.mem_cons_self _ _))
        rw [hp]
        refine ih net' (rest ++ out) (Wf_pulse net s r p net' out hW hp) ?_
        intro x hx
        rcases List.mem_append.mp hx with hx | hx
        · exact PulseOk_pulse net s r p net' out x (hq x (List.mem_cons_of_mem _ hx)) hp
        · exact out_PulseOk net s r p net' out m hW hm hp x hx

/-!  ### `parse_text` establishes the wiring invariant -/

/-- `strLtAux` is transitive. -/
theorem strLtAux_trans : ∀ (as bs cs : List Char),
    strLtAux as bs = true → strLtAux bs cs = true → strLtAux as cs = true := by
  intro as
  induction as with
  | nil =>
    intro bs cs h1 h2
    cases bs with
    | nil => exact absurd h1 (by simp [strLtAux])
    | cons b bs =>
      cases cs with
      | nil => exact absurd h2 (by simp [strLtAux])
      | cons c cs => simp [strLtAux]
  | cons a as ih =>
    intro bs cs h1 h2
    cases bs with
    | nil => exact absurd h1 (by simp [strLtAux])
    | cons b bs =>
      cases cs with
      | nil => exact absurd h2 (by simp [strLtAux])
      | cons c cs =>
        unfold strLtAux at h1 h2 ⊢
        by_cases hac : a.toNat < c.toNat
        · rw [if_pos hac]
        · by_cases hab : a.toNat < b.toNat
          · exfalso
            by_cases hbc : b.toNat < c.toNat
            · omega
            · by_cases hcb : c.toNat < b.toNat
              · rw [if_neg hbc, if_pos hcb] at h2
                exact Bool.noConfusion h2
              · omega
          · by_cases hba : b.toNat < a.toNat
            · rw [if_neg hab, if_pos hba] at h1
              exact Bool.noConfusion h1
            · rw [if_neg hab, if_neg hba] at h1
              by_cases hbc : b.toNat < c.toNat
              · exfalso
                omega
              · by_cases hcb : c.toNat < b.toNat
                · rw [if_neg hbc, if_pos hcb] at h2
                  exact Bool.noConfusion h2
                · rw [if_neg hbc, if_neg hcb] at h2
                  have hca : ¬ c.toNat < a.toNat := by omega
                  rw [if_neg hac, if_neg hca]
                  exact ih bs cs h1 h2

/-- `strLt` is transitive. -/
theorem strLt_trans (a b c : String) (h1 : strLt a b = true) (h2 : strLt b c = true) :
    strLt a c = true := strLtAux_trans a.data b.data c.data h1 h2

/-- Totality: two different keys compare strictly one way. -/
theorem strLt_total (a b : String) (hne : a ≠ b) :
    strLt a b = true ∨ strLt b a = true := by
  cases h1 : strLt a b
  · cases h2 : strLt b a
    · exact absurd (strLt_conn a b h1 h2) hne
    · exact Or.inr rfl
  · exact Or.inl rfl

/-- Keys of an inserted list: the new key or an old entry. -/
theorem consInsert_mem_keys : ∀ (cs : List (String × List String)) (x nm : String),
    ∀ e ∈ consInsert cs x nm, e.1 = x ∨ e ∈ cs := by
  intro cs x nm
  induction cs with
  | nil =>
    intro e he
    simp only [consInsert, List.mem_singleton] at he
    rw [he]
    exact Or.inl rfl
  | cons kv rest ih =>
    obtain ⟨k, v⟩ := kv
    intro e he
    simp only [consInsert] at he
    by_cases h1 : strLt x k = true
    · rw [if_pos h1] at he
      rcases List.mem_cons.mp he with he | he
      · rw [he]; exact Or.inl rfl
      · exact Or.inr he
    · rw [if_neg h1] at he
      by_cases h2 : x = k
      · rw [if_pos h2] at he
        rcases List.mem_cons.mp he with he | he
        · rw [he]; exact Or.inl h2.symm
        · exact Or.inr (List.mem_cons_of_mem _ he)
      · rw [if_neg h2] at he
        rcases List.mem_cons.mp he with he | he
        · rw [he]; exact Or.inr (List.mem_cons_self _ _)
        · rcases ih e he with h | h
          · exact Or.inl h
          · exact Or.inr (List.mem_cons_of_mem _ h)

/-- Sorted insertion keeps the `consumes` map sorted. -/
theorem consInsert_sorted : ∀ (cs : List (String × List String)) (x nm : String),
    consSorted cs → consSorted (consInsert cs x nm) := by
  intro cs x nm
  induction cs with
  | nil => intro _; simp [consInsert, consSorted]
  | cons kv rest ih =>
    obtain ⟨k, v⟩ := kv
    intro hs
    obtain ⟨hhead, htail⟩ := List.pairwise_cons.mp hs
    simp only [consInsert]
    by_cases h1 : strLt x k = true
    · rw [if_pos h1]
      refine List.pairwise_cons.mpr ⟨?_, hs⟩
      intro e he
      rcases List.mem_cons.mp he with he | he
      · rw [he]
        exact h1
      · exact strLt_trans x k e.1 h1 (hhead e he)
    · rw [if_neg h1]
      by_cases h2 : x = k
      · rw [if_pos h2]
        exact List.pairwise_cons.mpr ⟨fun e he => hhead e he, htail⟩
      · rw [if_neg h2]
        refine List.pairwise_cons.mpr ⟨?_, ih htail⟩
        intro e he
        rcases consInsert_mem_keys rest x nm e he with hex | hex
        · rw [hex]
          rcases strLt_total x k h2 with h | h
          · exact absurd h h1
          · exact h
        · exact hhead e hex

/-- Lookup of an absent key gives the empty set. -/
theorem consLookup_not_key : ∀ (cs : List (String × List String)) (x : String),
    (∀ e ∈ cs, e.1 ≠ x) → consLookup cs x = [] := by
  intro cs x
  induction cs with
  | nil => intro _; rfl
  | cons kv rest ih =>
    obtain ⟨k, v⟩ := kv
    intro h
    have hk : k ≠ x := h (k, v) (List.mem_cons_self _ _)
    simp only [consLookup, if_neg hk]
    exact ih fun e he => h e (List.mem_cons_of_mem _ he)

/-- In a sorted `consumes` map the head's key does not recur in the tail. -/
theorem consLookup_tail_head : ∀ (k : String) (v : List String)
    (rest : List (String × List String)), consSorted ((k, v) :: rest) →
    consLookup rest k = [] := by
  intro k v rest hs
  refine consLookup_not_key rest k fun e he hek => ?_
  have hlt := (List.pairwise_cons.mp hs).1 e he
  rw [hek] at hlt
  exact strLt_asymm k k hlt hlt

/-- The inserted producer is recorded under the inserted key. -/
theorem consInsert_self : ∀ (cs : List (String × List String)) (x nm : String),
    nm ∈ consLookup (consInsert cs x nm) x := by
  intro cs x nm
  induction cs with
  | nil => simp [consInsert, consLookup]
  | cons kv rest ih =>
    obtain ⟨k, v⟩ := kv
    simp only [consInsert]
    by_cases h1 : strLt x k = true
    · rw [if_pos h1]
      simp [consLookup]
    · rw [if_neg h1]
      by_cases h2 : x = k
      · rw [if_pos h2]
        simp only [consLookup, if_pos h2.symm]
        by_cases hnm : nm ∈ v
        · rw [if_pos hnm]
          exact hnm
        · rw [if_neg hnm]
          exact List.mem_append_right v (List.mem_singleton.mpr rfl)
      · rw [if_neg h2]
        have hk : k ≠ x := fun he => h2 he.symm
        simp only [consLookup, if_neg hk]
        exact ih

/-- Insertion never loses recorded producers. -/
theorem consInsert_mono : ∀ (cs : List (String × List String)) (x nm a y : String),
    consSorted cs → a ∈ consLookup cs y → a ∈ consLookup (consInsert cs x nm) y := by
  intro cs x nm a y
  induction cs with
  | nil =>
    intro _ ha
    simp [consLookup] at ha
  | cons kv rest ih =>
    obtain ⟨k, v⟩ := kv
    intro hs ha
    simp only [consInsert]
    by_cases h1 : strLt x k = true
    · rw [if_pos h1]
      by_cases hxy : x = y
      · exfalso
        simp only [consLookup] at ha
        have hky : k ≠ y := by
          intro he
          rw [← he] at hxy
          rw [hxy] at h1
          rw [strLt_irrefl] at h1
          exact Bool.noConfusion h1
        rw [if_neg hky] at ha
        have : consLookup rest y = [] := by
          refine consLookup_not_key rest y fun e he hey => ?_
          have hlt := (List.pairwise_cons.mp hs).1 e he
          rw [hey, ← hxy] at hlt
          have := strLt_trans x k x h1 hlt
          rw [strLt_irrefl] at this
          exact Bool.noConfusion this
        rw [this] at ha
        cases ha
      · have hxy' : x ≠ y := hxy
        simp only [consLookup, if_neg hxy']
        exact ha
    · rw [if_neg h1]
      by_cases h2 : x = k
      · rw [if_pos h2]
        simp only [consLookup] at ha ⊢
        by_cases hky : k = y
        · rw [if_pos hky] at ha ⊢
          by_cases hnm : nm ∈ v
          · rw [if_pos hnm]
            exact ha
          · rw [if_neg hnm]
            exact List.mem_append_left _ ha
        · rw [if_neg hky] at ha ⊢
          exact ha
      · rw [if_neg h2]
        simp only [consLookup] at ha ⊢
        by_cases hky : k = y
        · rw [if_pos hky] at ha ⊢
          exact ha
        · rw [if_neg hky] at ha ⊢
          exact ih (List.pairwise_cons.mp hs).2 ha

/-- `recordConsumes` keeps the map sorted. -/
theorem recordConsumes_sorted : ∀ (outs : List String) (cs : List (String × List String))
    (nm : String), consSorted cs → consSorted (recordConsumes nm outs cs) := by
  intro outs
  induction outs with
  | nil => intro cs nm hs; exact hs
  | cons x rest ih =>
    intro cs nm hs
    exact ih (consInsert cs x nm) nm (consInsert_sorted cs x nm hs)

/-- `recordConsumes` never loses recorded producers. -/
theorem recordConsumes_mono : ∀ (outs : List String) (cs : List (String × List String))
    (nm a y : String), consSorted cs → a ∈ consLookup cs y →
    a ∈ consLookup (recordConsumes nm outs cs) y := by
  intro outs
  induction outs with
  | nil => intro cs nm a y _ ha; exact ha
  | cons x rest ih =>
    intro cs nm a y hs ha
    exact ih (consInsert cs x nm) nm a y (consInsert_sorted cs x nm hs)
      (consInsert_mono cs x nm a y hs ha)

/-- After `recordConsumes nm outs cs`, `nm` is recorded under every output. -/
theorem recordConsumes_self : ∀ (outs : List String) (cs : List (String × List String))
    (nm o : String), consSorted cs → o ∈ outs →
    nm ∈ consLookup (recordConsumes nm outs cs) o := by
  intro outs
  induction outs with
  | nil => intro cs nm o _ ho; cases ho
  | cons x rest ih =>
    intro cs nm o hs ho
    rcases List.mem_cons.mp ho with ho | ho
    · rw [ho]
      exact recordConsumes_mono rest (consInsert cs x nm) nm nm x
        (consInsert_sorted cs x nm hs) (consInsert_self cs x nm)
    · exact ih (consInsert cs x nm) nm o (consInsert_sorted cs x nm hs) ho

/-- `mmInsert` lookup: the new binding shadows, everything else unchanged. -/
theorem mmInsert_find : ∀ (l : ModuleMap) (k : String) (v : Module) (k' : String),
    mmFind (mmInsert l k v) k' = if k = k' then some v else mmFind l k' := by
  intro l k v
  induction l with
  | nil =>
    intro k'
    simp [mmInsert, mmFind]
  | cons kv rest ih =>
    obtain ⟨k0, v0⟩ := kv
    intro k'
    simp only [mmInsert]
    by_cases h1 : strLt k k0 = true
    · rw [if_pos h1]
      by_cases h2 : k = k'
      · simp [mmFind, h2]
      · simp only [mmFind, if_neg h2]
    · rw [if_neg h1]
      by_cases h2 : k = k0
      · rw [if_pos h2]
        by_cases h3 : k = k'
        · simp only [mmFind, if_pos h3]
        · have h4 : ¬ k0 = k' := by rw [← h2]; exact h3
          simp only [mmFind, if_neg h3, if_neg h4]
      · rw [if_neg h2]
        by_cases h3 : k0 = k'
        · have h4 : ¬ k = k' := by rw [← h3]; exact h2
          simp only [mmFind, if_pos h3, if_neg h4]
        · simp only [mmFind, if_neg h3]
          exact ih k'

/-- The first phase of the parser maintains its invariant. -/
theorem parseLines_inv : ∀ (lines : List String) (ms : ModuleMap)
    (cs : List (String × List String)) (ms' : ModuleMap)
    (cs' : List (String × List String)),
    consSorted cs → ParseInv ms cs → parseLines lines ms cs = some (ms', cs') →
    consSorted cs' ∧ ParseInv ms' cs' := by
  intro lines
  induction lines with
  | nil =>
    intro ms cs ms' cs' hs hi hp
    simp only [parseLines, Option.some.injEq, Prod.mk.injEq] at hp
    rw [← hp.1, ← hp.2]
    exact ⟨hs, hi⟩
  | cons line rest ih =>
    intro ms cs ms' cs' hs hi hp
    simp only [parseLines] at hp
    by_cases hlen : (trimStr line).data.length = 0
    · rw [if_pos hlen] at hp
      exact ih ms cs ms' cs' hs hi hp
    · rw [if_neg hlen] at hp
      cases hpl : parseLine (trimStr line) with
      | none =>
        rw [hpl] at hp
        exact Option.noConfusion hp
      | some triple =>
        obtain ⟨name, kind, output⟩ := triple
        rw [hpl] at hp
        simp only [] at hp
        refine ih _ _ ms' cs' (recordConsumes_sorted output cs name hs) ?_ hp
        intro k m hk
        rw [mmInsert_find] at hk
        by_cases hkn : name = k
        · rw [if_pos hkn] at hk
          injection hk with hk
          rw [← hk]
          refine ⟨hkn, rfl, ?_⟩
          intro o ho
          rw [← hkn]
          exact recordConsumes_self output cs name o hs ho
        · rw [if_neg hkn] at hk
          obtain ⟨h1, h2, h3⟩ := hi k m hk
          exact ⟨h1, h2, fun o ho =>
            recordConsumes_mono output cs name k o hs (h3 o ho)⟩

/-- The lookup characterization of `parse_text`'s second phase. -/
theorem applyConsumes_find : ∀ (cs : List (String × List String)) (ms : ModuleMap)
    (k : String), consSorted cs →
    mmFind (applyConsumes cs ms) k =
      match mmFind ms k with
      | none => none
      | some m => some { m with input := m.input ++ consLookup cs k } := by
  intro cs
  induction cs with
  | nil =>
    intro ms k _
    simp only [applyConsumes, consLookup, List.append_nil]
    cases mmFind ms k <;> simp
  | cons kv rest ih =>
    obtain ⟨c, ins⟩ := kv
    intro ms k hs
    simp only [applyConsumes]
    cases hc : mmFind ms c with
    | none =>
      rw [ih ms k (List.pairwise_cons.mp hs).2]
      by_cases hck : c = k
      · rw [← hck, hc]
      · simp only [consLookup, if_neg hck]
    | some m0 =>
      rw [ih (mmSet ms c { m0 with input := m0.input ++ ins }) k (List.pairwise_cons.mp hs).2]
      by_cases hck : c = k
      · rw [← hck]
        rw [mmFind_mmSet_same ms c _ m0 hc, hc]
        simp only [consLookup, if_pos rfl]
        rw [consLookup_tail_head c ins rest hs]
        simp [List.append_assoc]
      · rw [mmFind_mmSet_other ms c k _ (fun he => hck he.symm)]
        simp only [consLookup, if_neg hck]

/-- The lookup characterization of `parse_text`'s third phase. -/
theorem sizeMemories_find : ∀ (l : ModuleMap) (k : String),
    mmFind (sizeMemories l) k = (mmFind l k).map sizeOne := by
  intro l
  induction l with
  | nil => intro k; rfl
  | cons kv rest ih =>
    obtain ⟨k0, v0⟩ := kv
    intro k
    simp only [sizeMemories, List.map_cons, mmFind]
    by_cases h : k0 = k
    · rw [if_pos h, if_pos h]
      rfl
    · rw [if_neg h, if_neg h]
      exact ih k

/-- `parse_text` produces only well-formed networks. -/
theorem parse_Wf (t : String) (net : Network) (hp : parse_text t = some net) :
    Wf net := by
  unfold parse_text at hp
  cases hpl : parseLines ((splitChar '\n' t.data).map fun cs => (⟨cs⟩ : String)) [] [] with
  | none =>
    rw [hpl] at hp
    exact Option.noConfusion hp
  | some pr =>
    obtain ⟨ms, cs⟩ := pr
    rw [hpl] at hp
    injection hp with hp
    obtain ⟨hsort, hinv⟩ := parseLines_inv _ [] [] ms cs (by simp [consSorted])
      (fun k m hk => by simp [mmFind] at hk) hpl
    rw [← hp]
    intro k m hfind
    simp only [] at hfind
    rw [sizeMemories_find] at hfind
    cases h1 : mmFind (applyConsumes cs ms) k with
    | none =>
      rw [h1] at hfind
      exact Option.noConfusion hfind
    | some m1 =>
      rw [h1] at hfind
      injection hfind with hfind
      rw [applyConsumes_find cs ms k hsort] at h1
      cases h0 : mmFind ms k with
      | none =>
        rw [h0] at h1
        exact Option.noConfusion h1
      | some m0 =>
        rw [h0] at h1
        injection h1 with h1
        obtain ⟨hn0, hi0, ho0⟩ := hinv k m0 h0
        have hname : m.name = k := by
          rw [← hfind, ← h1]
          unfold sizeOne
          cases ({ m0 with input := m0.input ++ consLookup cs k } : Module).kind <;>
            simp [hn0]
        have hinput : m.input = m0.input ++ consLookup cs k := by
          rw [← hfind, ← h1]
          unfold sizeOne
          cases ({ m0 with input := m0.input ++ consLookup cs k } : Module).kind <;> simp
        have houtput : m.output = m0.output := by
          rw [← hfind, ← h1]
          unfold sizeOne
          cases ({ m0 with input := m0.input ++ consLookup cs k } : Module).kind <;> simp
        refine ⟨hname, ?_, ?_⟩
        · intro mem hmem
          rw [← hfind, ← h1] at hmem
          rcases hk0 : m0.kind with _ | b | mem0
          · unfold sizeOne at hmem
            simp only [hk0] at hmem
            exact Kind.noConfusion hmem
          · unfold sizeOne at hmem
            simp only [hk0] at hmem
            exact Kind.noConfusion hmem
          · unfold sizeOne at hmem
            simp only [hk0] at hmem
            have hmem2 : List.replicate (m0.input ++ consLookup cs k).length false = mem := by
              injection hmem
            rw [← hmem2, hinput, List.length_replicate]
        · intro o m' ho hfo
          rw [houtput] at ho
          simp only [] at hfo
          rw [sizeMemories_find] at hfo
          cases h2 : mmFind (applyConsumes cs ms) o with
          | none =>
            rw [h2] at hfo
            exact Option.noConfusion hfo
          | some m2 =>
            rw [h2] at hfo
            injection hfo with hfo
            rw [applyConsumes_find cs ms o hsort] at h2
            cases h3 : mmFind ms o with
            | none =>
              rw [h3] at h2
              exact Option.noConfusion h2
            | some m3 =>
              rw [h3] at h2
              injection h2 with h2
              obtain ⟨hn3, hi3, _⟩ := hinv o m3 h3
              have : m'.input = m3.input ++ consLookup cs o := by
                rw [← hfo, ← h2]
                unfold sizeOne
                cases ({ m3 with input := m3.input ++ consLookup cs o } : Module).kind <;> simp
              rw [this, hi3, List.nil_append]
              exact ho0 o ho

/-- Consumers pushed by `partition` are modules of the parent network
stored under their own names. -/
theorem pushConsumers_pend (net : Network) (hW : Wf net) :
    ∀ (outs : List String) (pending : List Module),
    (∀ m ∈ pending, mmFind net.modules m.name = some m) →
    ∀ m ∈ B.pushConsumers net outs pending, mmFind net.modules m.name = some m := by
  intro outs
  induction outs with
  | nil => exact fun pending h => h
  | cons o rest ih =>
    intro pending h
    simp only [B.pushConsumers]
    cases hc : mmFind net.modules o with
    | none => exact ih pending h
    | some c =>
      refine ih (c :: pending) ?_
      intro m hm
      rcases List.mem_cons.mp hm with hm | hm
      · rw [hm, (hW o c hc).1]
        exact hc
      · exact h m hm

/-- Every module `partGo` collects is a module of the parent network. -/
theorem partGo_acc (net : Network) (e : String) (hW : Wf net) :
    ∀ (fuel : Nat) (pending : List Module) (acc res : ModuleMap),
    (∀ m ∈ pending, mmFind net.modules m.name = some m) →
    (∀ k mk, mmFind acc k = some mk → mmFind net.modules k = some mk) →
    B.partGo net e fuel pending acc = some res →
    ∀ k mk, mmFind res k = some mk → mmFind net.modules k = some mk := by
  intro fuel
  induction fuel with
  | zero =>
    intro pending acc res hpend hacc hgo
    cases pending with
    | nil =>
      simp only [B.partGo, Option.some.injEq] at hgo
      rw [← hgo]
      exact hacc
    | cons m pending' =>
      simp [B.partGo] at hgo
  | succ fuel ih =>
    intro pending acc res hpend hacc hgo
    cases pending with
    | nil =>
      simp only [B.partGo, Option.some.injEq] at hgo
      rw [← hgo]
      exact hacc
    | cons m pending' =>
      simp only [B.partGo] at hgo
      have hm : mmFind net.modules m.name = some m :=
        hpend m (List.mem_cons_self _ _)
      cases hc : mmContains acc m.name
      · rw [hc] at hgo
        simp only [Bool.false_eq_true, if_false] at hgo
        refine ih _ _ res ?_ ?_ hgo
        · by_cases hme : m.name = e
          · rw [if_pos hme]
            exact fun x hx => hpend x (List.mem_cons_of_mem _ hx)
          · rw [if_neg hme]
            exact pushConsumers_pend net hW m.output pending'
              (fun x hx => hpend x (List.mem_cons_of_mem _ hx))
        · intro k mk hk
          rw [mmInsert_find] at hk
          by_cases hkm : m.name = k
          · rw [if_pos hkm] at hk
            injection hk with hk
            rw [← hk, ← hkm]
            exact hm
          · rw [if_neg hkm] at hk
            exact hacc k mk hk
      · rw [hc] at hgo
        simp only [if_true] at hgo
        exact ih pending' acc res
          (fun x hx => hpend x (List.mem_cons_of_mem _ hx)) hacc hgo

/-- Sub-networks extracted by `partition` are themselves well-formed. -/
theorem partition_Wf (net : Network) (fuel : Nat) (hW : Wf net) :
    ∀ (se : List (String × String)) (subs : List (String × String × Network)),
    B.partition net fuel se = some subs → ∀ x ∈ subs, Wf x.2.2 := by
  intro se
  induction se with
  | nil =>
    intro subs hp x hx
    simp only [B.partition, Option.some.injEq] at hp
    rw [← hp] at hx
    cases hx
  | cons pr rest ih =>
    obtain ⟨s, e⟩ := pr
    intro subs hp x hx
    simp only [B.partition] at hp
    cases hone : B.partitionOne net fuel s e with
    | none =>
      rw [hone] at hp
      exact Option.noConfusion hp
    | some sub =>
      rw [hone] at hp
      cases hrest : B.partition net fuel rest with
      | none =>
        rw [hrest] at hp
        exact Option.noConfusion hp
      | some acc =>
        rw [hrest] at hp
        simp only [Option.map_some', Option.some.injEq] at hp
        rw [← hp] at hx
        rcases List.mem_cons.mp hx with hx | hx
        · rw [hx]
          simp only []
          unfold B.partitionOne at hone
          cases hfs : mmFind net.modules s with
          | none => simp [hfs] at hone
          | some ms =>
            cases hfe : mmFind net.modules e with
            | none => simp [hfs, hfe] at hone
            | some me =>
              simp only [hfs, hfe] at hone
              cases hgo : B.partGo net e fuel [me, ms] [] with
              | none => rw [hgo] at hone; exact Option.noConfusion hone
              | some res =>
                rw [hgo] at hone
                simp only [Option.map_some', Option.some.injEq] at hone
                have hres : ∀ k mk, mmFind res k = some mk →
                    mmFind net.modules k = some mk := by
                  refine partGo_acc net e hW fuel [me, ms] [] res ?_ ?_ hgo
                  · intro m hm
                    rcases List.mem_cons.mp hm with hm | hm
                    · rw [hm, (hW e me hfe).1]
                      exact hfe
                    · rcases List.mem_cons.mp hm with hm | hm
                      · rw [hm, (hW s ms hfs).1]
                        exact hfs
                      · cases hm
                  · intro k mk hk
                    simp [mmFind] at hk
                rw [← hone]
                intro k mk hk
                have hk2 := hres k mk hk
                obtain ⟨h1, h2, h3⟩ := hW k mk hk2
                refine ⟨h1, h2, ?_⟩
                intro o m' ho hfo
                exact h3 o m' ho (hres o m' hfo)
        · exact ih acc hrest x hx

/-- Claim C10 is false as stated: `parse_text` accepts a wiring whose
`broadcaster` is a Conjunction, and then the very first seed delivery of
the part-A simulator panics, because the seed's sender `button` is not in
the Conjunction's input list. -/
theorem pulse_can_fail :
    parse_text "&broadcaster -> a" =
      some ⟨[("broadcaster", ⟨.Conjunction [], "broadcaster", [], ["a"]⟩)]⟩ ∧
    (⟨[("broadcaster", ⟨.Conjunction [], "broadcaster", [], ["a"]⟩)]⟩ : Network).pulse
      "broadcaster" false "button" = none ∧
    A.tick 5 ⟨[("broadcaster", ⟨.Conjunction [], "broadcaster", [], ["a"]⟩)]⟩ 0 0 =
      .panic ∧
    A.solve 5 ⟨[("broadcaster", ⟨.Conjunction [], "broadcaster", [], ["a"]⟩)]⟩ = none := by
  refine ⟨by decide, by decide, by decide, by decide⟩

/-- Claim C10, amended: module-to-module deliveries never fail.  Networks
built by `parse_text` satisfy the wiring invariant `Wf`; on a well-formed
network the two queue loops never panic as long as every queued pulse
addressed to a defined Conjunction carries a sender from its input list —
true of every pulse the loops themselves generate — and `partition`
produces well-formed sub-networks.  (The seed pulse is the one exception
the counterexample exhibits: `button` is not a registered input, so a
Conjunction named `broadcaster` panics on it.) -/
theorem pulse_delivery_safe :
    (∀ (t : String) (net : Network), parse_text t = some net → Wf net) ∧
    (∀ (fuel : Nat) (net : Network) (q : List Pulse) (l h : Nat),
      Wf net → (∀ pl ∈ q, PulseOk net pl) → runQueue fuel net q l h ≠ .panic) ∧
    (∀ (fuel : Nat) (net : Network) (q : List Pulse),
      Wf net → (∀ pl ∈ q, PulseOk net pl) → B.runPulses fuel net q ≠ .panic) ∧
    (∀ (net : Network) (fuel : Nat) (se : List (String × String))
      (subs : List (String × String × Network)),
      Wf net → B.partition net fuel se = some subs → ∀ x ∈ subs, Wf x.2.2) :=
  ⟨parse_Wf, runQueue_no_panic, runPulses_no_panic,
    fun net fuel se subs hW hp => partition_Wf net fuel hW se subs hp⟩

/-- A concrete application of the safety theorem: a full seed delivery on
the first sample network cannot panic. -/
theorem pulse_delivery_safe_witness :
    runQueue 50 net1 [("button", "broadcaster", false)] 0 0 ≠ RunResult.panic :=
  pulse_delivery_safe.2.1 50 net1 [("button", "broadcaster", false)] 0 0
    (pulse_delivery_safe.1 sample1 net1 parse_sample1)
    (fun pl hpl => by
      rcases List.mem_singleton.mp hpl with rfl
      intro m mem hm hk
      have hfind : mmFind net1.modules "broadcaster" =
          some ⟨Kind.Broadcast, "broadcaster", [], ["a", "b", "c"]⟩ := by decide
      rw [hfind] at hm
      injection hm with hm
      rw [← hm] at hk
      exact Kind.noConfusion hk)

/-- From the fixed point, the queue never empties. -/
theorem loop_never_done : ∀ (fuel l h : Nat) (net' : Network) (l' h' : Nat),
    runQueue fuel netLoop1 [("a", "a", true)] l h ≠ .done net' l' h' := by
  intro fuel
  induction fuel with
  | zero =>
    intro l h net' l' h' h0
    simp [runQueue] at h0
  | succ fuel ih =>
    intro l h net' l' h' h0
    have hcont : mmContains netLoop1.modules "a" = true := by decide
    have hpulse : netLoop1.pulse "a" true "a" = some (netLoop1, [("a", "a", true)]) := by
      decide
    simp only [runQueue, hcont, if_true, hpulse, List.nil_append] at h0
    exact ih _ _ _ _ _ h0

/-- No amount of fuel completes a tick of `netLoop`. -/
theorem tick_netLoop_never : ∀ (fuel : Nat) (net' : Network) (l' h' : Nat),
    A.tick fuel netLoop 0 0 ≠ .done net' l' h' := by
  have h1 : netLoop.pulse "broadcaster" false "button" =
      some (netLoop, [("broadcaster", "a", false)]) := by decide
  have h2 : netLoop.pulse "a" false "broadcaster" =
      some (netLoop, [("a", "a", true)]) := by decide
  have h3 : netLoop.pulse "a" true "a" = some (netLoop1, [("a", "a", true)]) := by decide
  have hca : mmContains netLoop.modules "a" = true := by decide
  intro fuel
  unfold A.tick
  rw [h1]
  match fuel with
  | 0 =>
    intro net' l' h' h0
    simp [runQueue] at h0
  | 1 =>
    intro net' l' h' h0
    simp only [runQueue, hca, if_true, h2, List.nil_append] at h0
    simp [runQueue] at h0
  | (f + 2) =>
    intro net' l' h' h0
    simp only [runQueue, hca, if_true, h2, h3, List.nil_append] at h0
    exact loop_never_done f _ _ _ _ _ h0

/-- Claim C5 is false as stated: not every network's event loop runs to
completion.  On `netLoop` (a Conjunction wired to itself) the tick never
empties its queue, whatever fuel it is given. -/
theorem tick_can_diverge :
    ¬ ∃ (fuel : Nat) (net' : Network) (l' h' : Nat),
      A.tick fuel netLoop 0 0 = RunResult.done net' l' h' := by
  rintro ⟨fuel, net', l', h', h0⟩
  exact tick_netLoop_never fuel net' l' h' h0

/-- A kind is determined by its tag and its bits. -/
theorem kind_eq_of_tag_bits (k1 k2 : Kind) (ht : k1.tag = k2.tag)
    (hb : k1.bits = k2.bits) : k1 = k2 := by
  cases k1 <;> cases k2 <;> simp [Kind.tag, Kind.bits] at ht hb ⊢ <;> exact hb

/-- A network is determined by its shape and its state bits. -/
theorem net_eq_of_shape_state : ∀ (n1 n2 : Network),
    netShape n1 = netShape n2 → netState n1 = netState n2 → n1 = n2 := by
  have main : ∀ (l1 l2 : ModuleMap),
      l1.map (fun kv => (kv.1, kv.2.shape)) = l2.map (fun kv => (kv.1, kv.2.shape)) →
      l1.map (fun kv => kv.2.kind.bits) = l2.map (fun kv => kv.2.kind.bits) →
      l1 = l2 := by
    intro l1
    induction l1 with
    | nil =>
      intro l2 hs hb
      cases l2 with
      | nil => rfl
      | cons kv t => simp at hs
    | cons kv t1 ih =>
      intro l2 hs hb
      cases l2 with
      | nil => simp at hs
      | cons kv2 t2 =>
        obtain ⟨k1, m1⟩ := kv
        obtain ⟨k2, m2⟩ := kv2
        simp only [List.map_cons, List.cons.injEq] at hs hb
        obtain ⟨hshead, hstail⟩ := hs
        obtain ⟨hbhead, hbtail⟩ := hb
        simp only [Prod.mk.injEq, Module.shape] at hshead
        obtain ⟨hkk, hname, hinput, houtput, htag, hlen⟩ := hshead
        have hkind : m1.kind = m2.kind := kind_eq_of_tag_bits _ _ htag hbhead
        have hmod : m1 = m2 := by
          obtain ⟨ka, na, ia, oa⟩ := m1
          obtain ⟨kb, nb, ib, ob⟩ := m2
          simp only at hkind hname hinput houtput
          rw [hkind, hname, hinput, houtput]
        rw [hkk, hmod, ih t2 hstail hbtail]
  intro n1 n2 hs hb
  cases n1 with
  | mk l1 =>
    cases n2 with
    | mk l2 =>
      rw [main l1 l2 hs hb]

/-- Replacing a module by one of the same shape keeps the map's shape. -/
theorem mmSet_shape (r : String) (m m' : Module)
    (hshape : Module.shape m' = Module.shape m) :
    ∀ (l : ModuleMap), mmFind l r = some m →
    (mmSet l r m').map (fun kv => (kv.1, kv.2.shape)) =
      l.map (fun kv => (kv.1, kv.2.shape)) := by
  intro l
  induction l with
  | nil =>
    intro h
    simp [mmFind] at h
  | cons kv rest ih =>
    obtain ⟨k0, v0⟩ := kv
    intro hfind
    by_cases hk : k0 = r
    · simp only [mmFind, if_pos hk] at hfind
      injection hfind with hfind
      simp only [mmSet, if_pos hk, List.map_cons, List.cons.injEq]
      exact ⟨by rw [hshape, hfind, hk], trivial⟩
    · simp only [mmFind, if_neg hk] at hfind
      simp only [mmSet, if_neg hk, List.map_cons, List.cons.injEq]
      exact ⟨trivial, ih hfind⟩

/-- A pulse delivery does not change the network's shape. -/
theorem pulse_shape (net : Network) (s r : String) (p : Bool) (net' : Network)
    (out : List Pulse) (hp : net.pulse r p s = some (net', out)) :
    netShape net' = netShape net := by
  obtain ⟨m, m', hfind, hskel, hmod⟩ := pulse_mmSet net s r p net' out hp
  have hshape : Module.shape m' = Module.shape m := by
    obtain ⟨h1, h2, h3, h4, h5⟩ := hskel
    simp [Module.shape, h1, h2, h3, h4, h5]
  unfold netShape
  rw [hmod]
  exact mmSet_shape r m m' hshape net.modules hfind

/-- The part-B queue loop does not change the shape. -/
theorem runPulses_shape : ∀ (fuel : Nat) (net : Network) (q : List Pulse) (net' : Network),
    B.runPulses fuel net q = .done net' → netShape net' = netShape net := by
  intro fuel
  induction fuel with
  | zero =>
    intro net q net' h0
    cases q with
    | nil =>
      simp only [B.runPulses] at h0
      injection h0 with h0
      rw [h0]
    | cons pl rest => simp [B.runPulses] at h0
  | succ fuel ih =>
    intro net q net' h0
    cases q with
    | nil =>
      simp only [B.runPulses] at h0
      injection h0 with h0
      rw [h0]
    | cons pl rest =>
      obtain ⟨s, r, p⟩ := pl
      simp only [B.runPulses] at h0
      cases hc : mmContains net.modules r
      · rw [hc] at h0
        simp only [Bool.false_eq_true, if_false] at h0
        exact ih net rest net' h0
      · rw [hc] at h0
        simp only [if_true] at h0
        cases hp : net.pulse r p s with
        | none =>
          rw [hp] at h0
          exact B.RunResultB.noConfusion h0
        | some pr =>
          obtain ⟨net2, out⟩ := pr
          rw [hp] at h0
          rw [ih net2 (rest ++ out) net' h0]
          exact pulse_shape net s r p net2 out hp

/-- One part-B tick does not change the shape. -/
theorem tickB_shape (F : Nat) (s : String) (net net' : Network)
    (h : B.tickB F s net = some net') : netShape net' = netShape net := by
  unfold B.tickB at h
  cases hr : B.runPulses F net [("broadcaster", s, false)] with
  | done n => rw [hr] at h; injection h with h; rw [← h]; exact runPulses_shape F net _ n hr
  | outOfFuel n q => rw [hr] at h; exact Option.noConfusion h
  | panic => rw [hr] at h; exact Option.noConfusion h

/-- Iterated ticks do not change the shape. -/
theorem iterN_shape (F : Nat) (s : String) : ∀ (k : Nat) (net net' : Network),
    iterN F s k net = some net' → netShape net' = netShape net := by
  intro k
  induction k with
  | zero =>
    intro net net' h
    injection h with h
    rw [h]
  | succ k ih =>
    intro net net' h
    simp only [iterN] at h
    cases hk : iterN F s k net with
    | none => rw [hk] at h; exact Option.noConfusion h
    | some n =>
      rw [hk] at h
      rw [tickB_shape F s n net' h, ih net n hk]

/-- Every boolean vector of length `n` is enumerated. -/
theorem allBoolVecs_complete : ∀ (n : Nat) (v : List Bool), v.length = n →
    v ∈ allBoolVecs n := by
  intro n
  induction n with
  | zero =>
    intro v hv
    rw [List.length_eq_zero.mp hv]
    simp [allBoolVecs]
  | succ n ih =>
    intro v hv
    cases v with
    | nil => simp at hv
    | cons b rest =>
      simp only [List.length_cons, Nat.succ.injEq] at hv
      have hmem := ih rest hv
      cases b
      · exact List.mem_append_left _ (List.mem_map.mpr ⟨rest, hmem, rfl⟩)
      · exact List.mem_append_right _ (List.mem_map.mpr ⟨rest, hmem, rfl⟩)

/-- Every state vector matching the lengths is enumerated. -/
theorem allStateVecs_complete : ∀ (lens : List Nat) (vs : List (List Bool)),
    vs.map List.length = lens → vs ∈ allStateVecs lens := by
  intro lens
  induction lens with
  | nil =>
    intro vs hv
    rw [List.map_eq_nil_iff.mp hv]
    simp [allStateVecs]
  | cons n rest ih =>
    intro vs hv
    cases vs with
    | nil => simp at hv
    | cons v vs' =>
      simp only [List.map_cons, List.cons.injEq] at hv
      refine List.mem_flatten.mpr ⟨(allStateVecs rest).map fun ws => v :: ws, ?_, ?_⟩
      · exact List.mem_map.mpr ⟨v, allBoolVecs_complete n v hv.1, rfl⟩
      · exact List.mem_map.mpr ⟨vs', ih vs' hv.2, rfl⟩

/-- State vectors match their network's length profile. -/
theorem netState_lens (net : Network) : (netState net).map List.length = netLens net := by
  unfold netState netLens netShape
  rw [List.map_map, List.map_map]
  rfl

/-- `statesFind` misses exactly the unrecorded snapshots. -/
theorem statesFind_none : ∀ (states : List (Network × Nat)) (net : Network),
    B.statesFind states net = none → ∀ pr ∈ states, pr.1 ≠ net := by
  intro states net
  induction states with
  | nil => intro _ pr hpr; cases hpr
  | cons e rest ih =>
    obtain ⟨n, k⟩ := e
    intro h pr hpr
    simp only [B.statesFind] at h
    by_cases hn : n = net
    · rw [if_pos hn] at h
      exact Option.noConfusion h
    · rw [if_neg hn] at h
      rcases List.mem_cons.mp hpr with hpr | hpr
      · rw [hpr]
        exact hn
      · exact ih h pr hpr

/-- A found snapshot is a recorded entry. -/
theorem statesFind_some : ∀ (states : List (Network × Nat)) (net : Network) (k : Nat),
    B.statesFind states net = some k → (net, k) ∈ states := by
  intro states net
  induction states with
  | nil => intro k h; exact Option.noConfusion h
  | cons e rest ih =>
    obtain ⟨n, j⟩ := e
    intro k h
    simp only [B.statesFind] at h
    by_cases hn : n = net
    · rw [if_pos hn] at h
      injection h with h
      rw [← hn, ← h]
      exact List.mem_cons_self _ _
    · rw [if_neg hn] at h
      exact List.mem_cons_of_mem _ (ih k h)

/-- Unfolding one iteration. -/
theorem iterN_succ (F : Nat) (s : String) (k : Nat) (net0 net : Network)
    (h : iterN F s k net0 = some net) :
    iterN F s (k + 1) net0 = B.tickB F s net := by
  simp only [iterN, h]

/-- What a successful run of the cycle loop guarantees. -/
theorem cycleGo_some (F : Nat) (s : String) (net0 : Network) :
    ∀ (fuel : Nat) (net : Network) (states : List (Network × Nat)) (step cs ce : Nat),
    CycleInv F s net0 net states step →
    B.cycleGo F s fuel net states step = some (cs, ce) →
    cs < ce ∧ (∃ n, iterN F s cs net0 = some n ∧ iterN F s ce net0 = some n) ∧
    ∀ i j ni nj, i < j → j < ce → iterN F s i net0 = some ni →
      iterN F s j net0 = some nj → ni ≠ nj := by
  intro fuel
  induction fuel with
  | zero =>
    intro net states step cs ce _ hgo
    exact Option.noConfusion hgo
  | succ fuel ih =>
    intro net states step cs ce hinv hgo
    obtain ⟨hstep, hiter, hstates, hall, hinj⟩ := hinv
    simp only [B.cycleGo] at hgo
    cases ht : B.tickB F s net with
    | none =>
      simp only [ht] at hgo
      exact Option.noConfusion hgo
    | some net' =>
      have hiter' : iterN F s step net0 = some net' := by
        have := iterN_succ F s (step - 1) net0 net hiter
        rw [show step - 1 + 1 = step by omega] at this
        rw [this, ht]
      cases hsf : B.statesFind states net' with
      | some cs0 =>
        simp only [ht, hsf] at hgo
        injection hgo with hgo
        have hcs : cs0 = cs := congrArg Prod.fst hgo
        have hce : step = ce := congrArg Prod.snd hgo
        have hmem := statesFind_some states net' cs0 hsf
        obtain ⟨hlt, hit⟩ := hstates (net', cs0) hmem
        refine ⟨by omega, ⟨net', ?_, ?_⟩, ?_⟩
        · rw [← hcs]
          exact hit
        · rw [← hce]
          exact hiter'
        · intro i j ni nj hij hj hni hnj heq
          have := hinj i j ni nj (by omega) (by omega) hni hnj heq
          omega
      | none =>
        simp only [ht, hsf] at hgo
        refine ih net' ((net', step) :: states) (step + 1) cs ce ?_ hgo
        refine ⟨by omega, by simpa using hiter', ?_, ?_, ?_⟩
        · intro pr hpr
          rcases List.mem_cons.mp hpr with hpr | hpr
          · rw [hpr]
            exact ⟨by omega, hiter'⟩
          · have := hstates pr hpr
            exact ⟨by omega, this.2⟩
        · intro k hk
          by_cases hks : k = step
          · exact ⟨net', by rw [hks]; exact hiter', by rw [hks]; exact List.mem_cons_self _ _⟩
          · obtain ⟨n, hn1, hn2⟩ := hall k (by omega)
            exact ⟨n, hn1, List.mem_cons_of_mem _ hn2⟩
        · intro i j ni nj hi hj hni hnj heq
          by_cases his : i = step
          · by_cases hjs : j = step
            · omega
            · exfalso
              obtain ⟨n, hn1, hn2⟩ := hall j (by omega)
              have hnj2 : n = nj := by
                rw [hn1] at hnj
                exact Option.some.inj hnj
              have hni2 : ni = net' := by
                rw [his, hiter'] at hni
                exact (Option.some.inj hni).symm
              have hne := statesFind_none states net' hsf (n, j) hn2
              apply hne
              show n = net'
              rw [hnj2, ← heq, hni2]
          · by_cases hjs : j = step
            · exfalso
              obtain ⟨n, hn1, hn2⟩ := hall i (by omega)
              have hni2 : n = ni := by
                rw [hn1] at hni
                exact Option.some.inj hni
              have hnj2 : nj = net' := by
                rw [hjs, hiter'] at hnj
                exact (Option.some.inj hnj).symm
              have hne := statesFind_none states net' hsf (n, i) hn2
              apply hne
              show n = net'
              rw [hni2, heq, hnj2]
            · exact hinj i j ni nj (by omega) (by omega) hni hnj heq

/-- When the cycle loop runs out of fuel, either some tick failed or all
the snapshots it saw were distinct. -/
theorem cycleGo_none (F : Nat) (s : String) (net0 : Network) :
    ∀ (fuel : Nat) (net : Network) (states : List (Network × Nat)) (step : Nat),
    CycleInv F s net0 net states step →
    B.cycleGo F s fuel net states step = none →
    (∃ k, step ≤ k ∧ k < step + fuel ∧ iterN F s k net0 = none) ∨
    (∀ i j ni nj, i < j → j < step + fuel → iterN F s i net0 = some ni →
      iterN F s j net0 = some nj → ni ≠ nj) := by
  intro fuel
  induction fuel with
  | zero =>
    intro net states step hinv _
    right
    intro i j ni nj hij hj hni hnj heq
    have := hinv.2.2.2.2 i j ni nj (by omega) (by omega) hni hnj heq
    omega
  | succ fuel ih =>
    intro net states step hinv hgo
    obtain ⟨hstep, hiter, hstates, hall, hinj⟩ := hinv
    simp only [B.cycleGo] at hgo
    cases ht : B.tickB F s net with
    | none =>
      left
      refine ⟨step, le_refl step, by omega, ?_⟩
      have := iterN_succ F s (step - 1) net0 net hiter
      rw [show step - 1 + 1 = step by omega] at this
      rw [this, ht]
    | some net' =>
      have hiter' : iterN F s step net0 = some net' := by
        have := iterN_succ F s (step - 1) net0 net hiter
        rw [show step - 1 + 1 = step by omega] at this
        rw [this, ht]
      cases hsf : B.statesFind states net' with
      | some cs0 =>
        simp only [ht, hsf] at hgo
        exact Option.noConfusion hgo
      | none =>
        simp only [ht, hsf] at hgo
        have hinv' : CycleInv F s net0 net' ((net', step) :: states) (step + 1) := by
          refine ⟨by omega, by simpa using hiter', ?_, ?_, ?_⟩
          · intro pr hpr
            rcases List.mem_cons.mp hpr with hpr | hpr
            · rw [hpr]
              exact ⟨by omega, hiter'⟩
            · have := hstates pr hpr
              exact ⟨by omega, this.2⟩
          · intro k hk
            by_cases hks : k = step
            · exact ⟨net', by rw [hks]; exact hiter',
                by rw [hks]; exact List.mem_cons_self _ _⟩
            · obtain ⟨n, hn1, hn2⟩ := hall k (by omega)
              exact ⟨n, hn1, List.mem_cons_of_mem _ hn2⟩
          · intro i j ni nj hi hj hni hnj heq
            by_cases his : i = step
            · by_cases hjs : j = step
              · omega
              · exfalso
                obtain ⟨n, hn1, hn2⟩ := hall j (by omega)
                have hnj2 : n = nj := by
                  rw [hn1] at hnj
                  exact Option.some.inj hnj
                have hni2 : ni = net' := by
                  rw [his, hiter'] at hni
                  exact (Option.some.inj hni).symm
                have hne := statesFind_none states net' hsf (n, j) hn2
                apply hne
                show n = net'
                rw [hnj2, ← heq, hni2]
            · by_cases hjs : j = step
              · exfalso
                obtain ⟨n, hn1, hn2⟩ := hall i (by omega)
                have hni2 : n = ni := by
                  rw [hn1] at hni
                  exact Option.some.inj hni
                have hnj2 : nj = net' := by
                  rw [hjs, hiter'] at hnj
                  exact (Option.some.inj hnj).symm
                have hne := statesFind_none states net' hsf (n, i) hn2
                apply hne
                show n = net'
                rw [hni2, heq, hnj2]
              · exact hinj i j ni nj (by omega) (by omega) hni hnj heq
        rcases ih net' ((net', step) :: states) (step + 1) hinv' hgo with ⟨k, h1, h2, h3⟩ | hd
        · exact Or.inl ⟨k, by omega, by omega, h3⟩
        · right
          intro i j ni nj hij hj hni hnj
          exact hd i j ni nj hij (by omega) hni hnj

/-- Claim C5, amended: when every tick up to the snapshot bound succeeds,
the cycle finder terminates — with fuel `stateBound net + 1` it returns a
cycle, because the snapshots all share the initial shape, at most
`stateBound net` distinct state vectors exist for that shape, and so two
snapshots among the first `stateBound net + 2` must coincide. -/
theorem cycle_finder_terminates (F : Nat) (s e : String) (net : Network)
    (h : ∀ k, k ≤ stateBound net + 1 → (iterN F s k net).isSome = true) :
    ∃ cs ce, B.calculate_cycle F (stateBound net + 1) net s e = some (cs, ce) := by
  cases hr : B.calculate_cycle F (stateBound net + 1) net s e with
  | some pr =>
    obtain ⟨cs, ce⟩ := pr
    exact ⟨cs, ce, rfl⟩
  | none =>
    exfalso
    unfold B.calculate_cycle at hr
    have hinv : CycleInv F s net net [(net, 0)] 1 := by
      refine ⟨le_refl 1, by simp [iterN], ?_, ?_, ?_⟩
      · intro pr hpr
        rw [List.mem_singleton.mp hpr]
        exact ⟨Nat.zero_lt_one, by simp [iterN]⟩
      · intro k hk
        have hk0 : k = 0 := by omega
        rw [hk0]
        exact ⟨net, by simp [iterN], List.mem_singleton.mpr rfl⟩
      · intro i j ni nj hi hj _ _ _
        omega
    rcases cycleGo_none F s net (stateBound net + 1) net [(net, 0)] 1 hinv hr with
      ⟨k, hk1, hk2, hk3⟩ | hdist
    · have := h k (by omega)
      rw [hk3] at this
      simp at this
    · have hdef : ∀ k : Fin (stateBound net + 2), ∃ n, iterN F s k.val net = some n := by
        intro k
        have hk := k.isLt
        have := h k.val (by omega)
        exact Option.isSome_iff_exists.mp this
      choose g hg using hdef
      have hginj : Function.Injective g := by
        intro i j hij
        by_contra hne
        have hne2 : i.val ≠ j.val := fun hv => hne (Fin.ext hv)
        rcases Nat.lt_or_ge i.val j.val with hlt | hge
        · have hj := j.isLt
          exact hdist i.val j.val (g i) (g j) hlt (by omega) (hg i) (hg j) hij
        · have hlt : j.val < i.val := by omega
          have hi := i.isLt
          exact hdist j.val i.val (g j) (g i) hlt (by omega) (hg j) (hg i) hij.symm
      have hshape : ∀ k : Fin (stateBound net + 2), netShape (g k) = netShape net :=
        fun k => iterN_shape F s k.val net (g k) (hg k)
      have hmem : ∀ k : Fin (stateBound net + 2),
          netState (g k) ∈ allStateVecs (netLens net) := by
        intro k
        apply allStateVecs_complete
        rw [netState_lens]
        unfold netLens
        rw [hshape k]
      have hsinj : Function.Injective fun k : Fin (stateBound net + 2) =>
          netState (g k) := by
        intro i j hij
        apply hginj
        exact net_eq_of_shape_state (g i) (g j) (by rw [hshape i, hshape j]) hij
      have hinj2 : Function.Injective fun k : Fin (stateBound net + 2) =>
          (⟨netState (g k), List.mem_toFinset.mpr (hmem k)⟩ :
            {x // x ∈ (allStateVecs (netLens net)).toFinset}) := by
        intro i j hij
        apply hsinj
        exact congrArg Subtype.val hij
      have hcard := Fintype.card_le_of_injective _ hinj2
      rw [Fintype.card_fin, Fintype.card_coe] at hcard
      have hlen := List.toFinset_card_le (allStateVecs (netLens net))
      unfold stateBound at hcard
      omega

/-- A concrete application of the termination theorem: the two-flip-flop
chain has at most 4 states, and the cycle finder indeed returns with fuel 5. -/
theorem cycle_finder_terminates_witness :
    ∃ cs ce, B.calculate_cycle 20 (stateBound chainNet + 1) chainNet "a" "b" =
      some (cs, ce) :=
  cycle_finder_terminates 20 "a" "b" chainNet (by decide)

/-!  ## Claim C4: what the cycle finder returns, and the part-B answer -/

/-- Unrolling `lcmFold`: a successful fold is the `lcm`-fold of the
per-sub-network periods `cycle_end - cycle_start`. -/
theorem lcmFold_spec (F fuel : Nat) : ∀ (subs : List (String × String × Network)) (acc r : Nat),
    B.lcmFold F fuel acc subs = some r →
    ∃ periods, List.Forall₂ (fun t p => ∃ cs ce,
        B.calculate_cycle F fuel t.2.2 t.1 t.2.1 = some (cs, ce) ∧ p = ce - cs) subs periods ∧
      r = periods.foldl Nat.lcm acc := by
  intro subs
  induction subs with
  | nil =>
    intro acc r h
    simp only [B.lcmFold, Option.some.injEq] at h
    exact ⟨[], List.Forall₂.nil, h.symm⟩
  | cons t rest ih =>
    obtain ⟨s, e, sub⟩ := t
    intro acc r h
    simp only [B.lcmFold] at h
    cases hc : B.calculate_cycle F fuel sub s e with
    | none =>
      rw [hc] at h
      exact Option.noConfusion h
    | some pr =>
      obtain ⟨cs, ce⟩ := pr
      rw [hc] at h
      obtain ⟨periods, hf, hr⟩ := ih (Nat.lcm acc (ce - cs)) r h
      exact ⟨(ce - cs) :: periods,
        List.Forall₂.cons ⟨cs, ce, hc, rfl⟩ hf, hr⟩

/-- Claim C4: a successful `calculate_cycle` returns `(cycle_start,
cycle_end)` where the `cycle_end`-th post-tick snapshot is the first to
repeat an earlier one and `cycle_start` is the tick first associated with
that snapshot (all snapshots before `cycle_end`, the initial one at tick 0
included, are pairwise distinct, and the snapshots at `cycle_start` and
`cycle_end` coincide); and the part-B answer is the pairwise-`lcm`
reduction of the per-sub-network periods `cycle_end - cycle_start`. -/
theorem cycle_and_lcm :
    (∀ (F fuel : Nat) (net : Network) (s e : String) (cs ce : Nat),
      B.calculate_cycle F fuel net s e = some (cs, ce) →
      cs < ce ∧ (∃ n, iterN F s cs net = some n ∧ iterN F s ce net = some n) ∧
      ∀ i j ni nj, i < j → j < ce → iterN F s i net = some ni →
        iterN F s j net = some nj → ni ≠ nj) ∧
    (∀ (F fuel wfuel : Nat) (net : Network) (r : Nat),
      B.solve F fuel wfuel net = some r →
      ∃ se subs periods, B.find_sub_graphs_start_end wfuel net = some se ∧
        B.partition net wfuel se = some subs ∧
        List.Forall₂ (fun t p => ∃ cs ce,
          B.calculate_cycle F fuel t.2.2 t.1 t.2.1 = some (cs, ce) ∧ p = ce - cs) subs periods ∧
        r = periods.foldl Nat.lcm 1) := by
  constructor
  · intro F fuel net s e cs ce h
    unfold B.calculate_cycle at h
    have hinv : CycleInv F s net net [(net, 0)] 1 := by
      refine ⟨le_refl 1, by simp [iterN], ?_, ?_, ?_⟩
      · intro pr hpr
        rw [List.mem_singleton.mp hpr]
        exact ⟨Nat.zero_lt_one, by simp [iterN]⟩
      · intro k hk
        have hk0 : k = 0 := by omega
        rw [hk0]
        exact ⟨net, by simp [iterN], List.mem_singleton.mpr rfl⟩
      · intro i j ni nj hi hj _ _ _
        omega
    exact cycleGo_some F s net fuel net [(net, 0)] 1 cs ce hinv h
  · intro F fuel wfuel net r h
    unfold B.solve at h
    cases hf : B.find_sub_graphs_start_end wfuel net with
    | none =>
      simp only [hf] at h
      exact Option.noConfusion h
    | some se =>
      cases hp : B.partition net wfuel se with
      | none =>
        simp only [hf, hp] at h
        exact Option.noConfusion h
      | some subs =>
        simp only [hf, hp] at h
        obtain ⟨periods, hfa, hr⟩ := lcmFold_spec F fuel subs 1 r h
        exact ⟨se, subs, periods, rfl, hp, hfa, hr⟩

/-- A concrete application of both halves of the theorem: on the
two-flip-flop chain the cycle runs from tick 0 back to tick 4, and on
`netB` the part-B answer 8 is an `lcm`-fold of sub-network periods. -/
theorem cycle_and_lcm_witness :
    (0 < 4 ∧ (∃ n, iterN 20 "a" 0 chainNet = some n ∧ iterN 20 "a" 4 chainNet = some n) ∧
    ∀ i j ni nj, i < j → j < 4 → iterN 20 "a" i chainNet = some ni →
      iterN 20 "a" j chainNet = some nj → ni ≠ nj) ∧
    (∃ se subs periods, B.find_sub_graphs_start_end 100 netB = some se ∧
      B.partition netB 100 se = some subs ∧
      List.Forall₂ (fun t p => ∃ cs ce,
        B.calculate_cycle 100 100 t.2.2 t.1 t.2.1 = some (cs, ce) ∧ p = ce - cs) subs periods ∧
      8 = periods.foldl Nat.lcm 1) :=
  ⟨cycle_and_lcm.1 20 10 chainNet "a" "b" 0 4 (by decide),
   cycle_and_lcm.2 100 100 100 netB 8 (by decide)⟩

end Day20

